import Mathlib

/-!
# Fixed-distance 3D clustering (`cluster.c`)

A shallow embedding of the clustering engine of `cluster.c`:
`euclidean_distance`, `delete_head`, `get_neighbours` and `bfcluster`.

Memory model.  A `VOXEL *` is a natural number and the heap is a total map
from voxel pointers to voxels.  A `LINKEDLIST *` is the list of the voxel
pointers held by its nodes, the empty list being `NULL`.

Arithmetic model.  Coordinates and cluster ids are C `int`s, modelled as
unbounded integers (signed overflow is undefined in C).  The `float`
distance is modelled exactly: `euclidean_distance` returns the square root
of an integer sum of squares, which is represented by that sum, and the
`float` threshold is represented by its sign and its square.
-/

namespace FixedDistCluster

/-- The `struct voxel`: three integer coordinates and the cluster id
(`-1` while the voxel is not assigned). -/
structure VOXEL where
  coordinate : Fin 3 → Int
  cluster : Int

/-- The `const float distance` argument of `get_neighbours` and `bfcluster`,
as an exact real number: `negative` tells that it is below zero, `square` is
its square.  `√2` is `⟨false, 2⟩`, `1.5` is `⟨false, 9/4⟩`.  A threshold
with `negative = true` stands for any value that no distance is below. -/
structure Threshold where
  negative : Bool
  square : ℚ
deriving DecidableEq

/-- The program state the engine works on: the heap of voxels, the two
global `unsigned int` counters and the lines written by the progress
`printf("%u\n", ...)` of `get_neighbours` (oldest first). -/
structure State where
  voxel : Nat → VOXEL
  total_number_of_elements : Nat
  elements_assigned_to_clusters : Nat
  printed : List Nat

/-- The range of `unsigned int`. -/
def UINT_RANGE : Nat := 4294967296

/-- The value of the accumulator `dist` of `euclidean_distance` when its loop
over the three axes ends: the sum of the squared coordinate differences.
The C function returns `sqrt(dist)`. -/
def euclidean_distance_sq (p p2 : VOXEL) : Int :=
  (List.finRange 3).foldl
    (fun dist i => dist + (p.coordinate i - p2.coordinate i) ^ 2) 0

/-- The test `euclidean_distance(p, q) <= distance` of `get_neighbours`,
on the squared distance `dist`: `sqrt(dist) <= distance` holds exactly when
`distance` is not negative and `dist <= distance * distance`. -/
def within_distance (dist : Int) (distance : Threshold) : Bool :=
  !distance.negative && decide ((dist : ℚ) ≤ distance.square)

/-- The assignment `v->cluster = c` through the voxel pointer `v`. -/
def State.set_cluster (s : State) (v : Nat) (c : Int) : State :=
  { s with voxel := fun w => if w = v then { s.voxel v with cluster := c } else s.voxel w }

/-- The statement
`printf("%u\n", total_number_of_elements-(++elements_assigned_to_clusters))`:
the counter is incremented and the difference printed, in `unsigned int`
arithmetic. -/
def State.count_assigned (s : State) : State :=
  let n := (s.elements_assigned_to_clusters + 1) % UINT_RANGE
  { s with
    elements_assigned_to_clusters := n
    printed := s.printed ++ [(s.total_number_of_elements + UINT_RANGE - n) % UINT_RANGE] }

/-- The function `delete_head`: drops the first node, `NULL` stays `NULL`. -/
def delete_head : List Nat → List Nat
  | [] => []
  | _ :: nh => nh

/-- The result of the `while (e != NULL)` loop of `get_neighbours`. -/
structure Scan where
  state : State
  -- the nodes that stay linked behind the head
  kept : List Nat
  -- the list `previous_neighbour` (equal to `neighbour`)
  neighbour : List Nat

/-- The `while (e != NULL)` loop of `get_neighbours`: `p` is the centre, the
list argument is the part of the pool from `e` on and `previous_neighbour`
the neighbours collected so far (each new one is put in front). -/
def get_neighbours_loop (p : Nat) (distance : Threshold) :
    State → List Nat → List Nat → Scan
  | s, [], previous_neighbour => ⟨s, [], previous_neighbour⟩
  | s, e :: es, previous_neighbour =>
    if within_distance (euclidean_distance_sq (s.voxel p) (s.voxel e)) distance then
      let s1 := s.count_assigned
      let s2 := s1.set_cluster e (s1.voxel p).cluster
      get_neighbours_loop p distance s2 es (e :: previous_neighbour)
    else
      let r := get_neighbours_loop p distance s es previous_neighbour
      ⟨r.state, e :: r.kept, r.neighbour⟩

/-- The result of `get_neighbours`: the state, the pool written back to `*h`
and the returned list of neighbours. -/
structure Neighbours where
  state : State
  pool : List Nat
  neighbour : List Nat

/-- The function `get_neighbours(p, h, distance)` on a pool `*h` whose first
node holds `head` and whose other nodes hold `rest` (the function reads
`head->next`, so the pool is not `NULL`). -/
def get_neighbours (p : Nat) (s : State) (head : Nat) (rest : List Nat)
    (distance : Threshold) : Neighbours :=
  let r := get_neighbours_loop p distance s rest []
  if (r.state.voxel head).cluster = -1 ∧
      within_distance (euclidean_distance_sq (r.state.voxel p) (r.state.voxel head)) distance
        = true then
    let s1 := r.state.count_assigned
    let s2 := s1.set_cluster head (s1.voxel p).cluster
    ⟨s2, r.kept, head :: r.neighbour⟩
  else
    ⟨r.state, head :: r.kept, r.neighbour⟩

/-- The inner loop `while (neighbour != NULL && pointstovisit != NULL)` of
`bfcluster`: the first node of `neighbour` is the centre of the next query,
the new neighbours are linked behind the last node and the first node is
deleted.  `fuel` bounds the number of loop tests; `none` when it runs out. -/
def bfcluster_grow (distance : Threshold) :
    Nat → State → List Nat → List Nat → Option (State × List Nat)
  | 0, _, _, _ => none
  | fuel + 1, s, n :: neighbour, head :: rest =>
    let r := get_neighbours n s head rest distance
    bfcluster_grow distance fuel r.state (neighbour ++ r.neighbour) r.pool
  | _ + 1, s, _, pointstovisit => some (s, pointstovisit)

/-- The outer loop `while (pointstovisit != NULL)` of `bfcluster`, from the
state `s`, the pool `pointstovisit` and the value `cluster` of the counter.
`fuel` bounds the number of loop tests; `none` when it runs out. -/
def bfcluster_loop (distance : Threshold) :
    Nat → State → List Nat → Int → Option (State × Int)
  | 0, _, _, _ => none
  | _ + 1, s, [], cluster => some (s, cluster)
  | fuel + 1, s, head :: rest, cluster =>
    let s1 := s.set_cluster head (cluster + 1)
    let r := get_neighbours head s1 head rest distance
    match bfcluster_grow distance (fuel + 1) r.state r.neighbour r.pool with
    | none => none
    | some (s2, pointstovisit) =>
      bfcluster_loop distance fuel s2 (delete_head pointstovisit) (cluster + 1)

/-- The function `bfcluster(pointstovisit, distance)`: the final state and the
returned `cluster`.  The loops get `length + 1` tests, which is enough on
every pool (`bfcluster_loop_total`). -/
def bfcluster (s : State) (pointstovisit : List Nat) (distance : Threshold) :
    Option (State × Int) :=
  bfcluster_loop distance (pointstovisit.length + 1) s pointstovisit (-1)

/-- A state as `read_voxels` leaves it: voxel `i` has the `i`-th triple of the
list as `coordinate[0]`, `coordinate[1]`, `coordinate[2]` and cluster `-1`,
`total_number_of_elements` counts the voxels and nothing is assigned or
printed yet. -/
def heap_of (l : List (Int × Int × Int)) : State :=
  { voxel := fun i =>
      let c := l.getD i (0, 0, 0)
      ⟨fun k => if k = 0 then c.1 else if k = 1 then c.2.1 else c.2.2, -1⟩
    total_number_of_elements := l.length
    elements_assigned_to_clusters := 0
    printed := [] }

/-- The threshold `sqrt(2)` that `main` passes to `bfcluster`. -/
def threshold_sqrt2 : Threshold := ⟨false, 2⟩

/-- The threshold `1.5`, of square `9/4`. -/
def threshold_1_5 : Threshold := ⟨false, { num := 9, den := 4 }⟩

/-- Whether voxel `j` passes the distance test of `get_neighbours` around the
centre `i`, in the state `s`. -/
def near (s : State) (distance : Threshold) (i j : Nat) : Bool :=
  within_distance (euclidean_distance_sq (s.voxel i) (s.voxel j)) distance

/-- One link of a chain of input points: `y` is a point of the input `pool`
and passes the distance test around `x`. -/
def linked (s0 : State) (pool : List Nat) (d : Threshold) (x y : Nat) : Prop :=
  y ∈ pool ∧ near s0 d x y = true

/-- The invariant of the inner loop of `bfcluster` while the cluster `c` of the
seed `h` grows.  The pool was `h :: t` and the state `sb` when the outer
iteration began, it is `h :: q` now, `f` is the list `neighbour` and `s` the
state; `s0` and `pool` are the initial state and pool. -/
structure GrowInv (s0 : State) (pool : List Nat) (d : Threshold) (h : Nat) (t : List Nat)
    (c : Int) (sb s : State) (f q : List Nat) : Prop where
  nodup : (h :: q).Nodup
  sub_pool : ∀ i ∈ q, i ∈ t
  sub_front : ∀ i ∈ f, (i = h ∨ i ∈ t) ∧ i ∉ q
  coords : ∀ i, (s.voxel i).coordinate = (s0.voxel i).coordinate
  unassigned : ∀ i ∈ q, (s.voxel i).cluster = -1
  seed : (s.voxel h).cluster = c
  members : ∀ i ∈ t, i ∉ q → (s.voxel i).cluster = c
  frame : ∀ i, i ≠ h → i ∉ t → (s.voxel i).cluster = (sb.voxel i).cluster
  sound : ∀ i ∈ t, i ∉ q → Relation.ReflTransGen (linked s0 pool d) h i
  complete : ∀ i, i = h ∨ i ∈ t → i ∉ q → i ∈ f ∨ ∀ j ∈ q, near s0 d i j = false

/-- The invariant of the outer loop of `bfcluster`: `p` is the pool left,
`c` the last cluster id given and `s` the state; `s0` and `pool` are the
initial state and pool. -/
structure LoopInv (s0 : State) (pool : List Nat) (d : Threshold)
    (s : State) (p : List Nat) (c : Int) : Prop where
  nodup : p.Nodup
  sub : ∀ i ∈ p, i ∈ pool
  coords : ∀ i, (s.voxel i).coordinate = (s0.voxel i).coordinate
  unassigned : ∀ i ∈ p, (s.voxel i).cluster = -1
  frame : ∀ i, i ∉ pool → (s.voxel i).cluster = (s0.voxel i).cluster
  counter : -1 ≤ c
  range : ∀ i ∈ pool, i ∉ p → 0 ≤ (s.voxel i).cluster ∧ (s.voxel i).cluster ≤ c
  closed : ∀ i ∈ pool, i ∉ p → ∀ j ∈ pool, near s0 d i j = true → j ∉ p
  classes : ∀ i ∈ pool, i ∉ p → ∀ j ∈ pool, j ∉ p →
    ((s.voxel i).cluster = (s.voxel j).cluster ↔ Relation.ReflTransGen (linked s0 pool d) i j)
  onto : ∀ k : Int, 0 ≤ k → k ≤ c → ∃ i ∈ pool, i ∉ p ∧ (s.voxel i).cluster = k

/-- A control point of `bfcluster` with the values of its variables: the
test of the outer `while`, the test of the inner `while`, or the `return`. -/
inductive Config where
  | outer (s : State) (pointstovisit : List Nat) (cluster : Int)
  | inner (s : State) (neighbour pointstovisit : List Nat) (cluster : Int)
  | done (s : State) (cluster : Int)

/-- The program state at a control point. -/
def Config.state : Config → State
  | .outer s _ _ => s
  | .inner s _ _ _ => s
  | .done s _ => s

/-- The list `pointstovisit` at a control point (`NULL` at the `return`). -/
def Config.pointstovisit : Config → List Nat
  | .outer _ p _ => p
  | .inner _ _ p _ => p
  | .done _ _ => []

/-- The list `neighbour` at a test of the inner loop, `NULL` elsewhere. -/
def Config.neighbour : Config → List Nat
  | .inner _ f _ _ => f
  | _ => []

/-- The variable `cluster` at a control point. -/
def Config.cluster : Config → Int
  | .outer _ _ c => c
  | .inner _ _ _ c => c
  | .done _ c => c

/-- One move of `bfcluster` from a control point to the next one.  From the
test of the outer loop: `return` on `NULL`, else the seed gets `++cluster`,
`get_neighbours` is called around it and the inner loop is entered.  From the
test of the inner loop: one more query while both lists are not `NULL`, else
`delete_head(pointstovisit)` and back to the outer test. -/
def bfcluster_step (distance : Threshold) : Config → Config
  | .outer s [] cluster => .done s cluster
  | .outer s (head :: rest) cluster =>
    let s1 := s.set_cluster head (cluster + 1)
    let r := get_neighbours head s1 head rest distance
    .inner r.state r.neighbour r.pool (cluster + 1)
  | .inner s (n :: neighbour) (head :: rest) cluster =>
    let r := get_neighbours n s head rest distance
    .inner r.state (neighbour ++ r.neighbour) r.pool cluster
  | .inner s _ pointstovisit cluster => .outer s (delete_head pointstovisit) cluster
  | .done s cluster => .done s cluster

/-- The control point `bfcluster` is at after `n` moves from `c`. -/
def bfcluster_run (distance : Threshold) (n : Nat) (c : Config) : Config :=
  Nat.iterate (bfcluster_step distance) n c

/-- The control point at which `bfcluster(pointstovisit, distance)` starts. -/
def bfcluster_start (s : State) (pointstovisit : List Nat) : Config :=
  .outer s pointstovisit (-1)

/-- The record `"%d,%d,%d,%d\n"` that `print_clusters` writes for a voxel:
cluster id and the three coordinates. -/
def record (v : VOXEL) : Int × Int × Int × Int :=
  (v.cluster, v.coordinate 0, v.coordinate 1, v.coordinate 2)

/-- The inner loop `while (e != NULL)` of `print_clusters` for the cluster id
`i`: the records written to the file, in list order (their number is the
count `c` of the pass). -/
def print_clusters_pass (s : State) (i : Int) : List Nat → List (Int × Int × Int × Int)
  | [] => []
  | e :: es =>
    if (s.voxel e).cluster = i then record (s.voxel e) :: print_clusters_pass s i es
    else print_clusters_pass s i es

/-- What `print_clusters` produces: the records written to the file, the
lines `Cluster i contains c elements` as pairs `(i, c)`, and the total `n`. -/
structure Output where
  file : List (Int × Int × Int × Int)
  contains : List (Int × Nat)
  n : Nat

/-- The loop `for (i = ...; i <= maxcluster; i++)` of `print_clusters` with
`k` passes left, `i` the current id and `out` what was produced so far. -/
def print_clusters_loop (s : State) (head : List Nat) : Nat → Int → Output → Output
  | 0, _, out => out
  | k + 1, i, out =>
    let lines := print_clusters_pass s i head
    print_clusters_loop s head k (i + 1)
      ⟨out.file ++ lines, out.contains ++ [(i, lines.length)], out.n + lines.length⟩

/-- The function `print_clusters(e, maxcluster, outfilename)`: the passes for
`i = -1, 0, ..., maxcluster`, which are `maxcluster + 2` passes (none when
`maxcluster < -1`). -/
def print_clusters (s : State) (e : List Nat) (maxcluster : Int) : Output :=
  print_clusters_loop s e (maxcluster + 2).toNat (-1) ⟨[], [], 0⟩

/-- The invariant of `bfcluster` at a control point, on a pool of pairwise
different, unassigned voxels: `LoopInv` at the outer test and at the
`return`, `GrowInv` at the inner test, with the seed at the head of the
pool. -/
def ConfInv (s0 : State) (pool : List Nat) (d : Threshold) : Config → Prop
  | .outer s p c => LoopInv s0 pool d s p c
  | .inner s f p c => ∃ h t q sb, p = h :: q ∧ LoopInv s0 pool d sb (h :: t) (c - 1) ∧
      GrowInv s0 pool d h t c sb s f q
  | .done s c => LoopInv s0 pool d s [] c

/-- The seeds stand in the order of the input pool: for every id `k` given so
far the pool splits at a point of cluster `k` before which all points have
smaller ids. -/
def SeedOrder (pool : List Nat) (c : Config) : Prop :=
  c.pointstovisit.Sublist pool ∧
  ∀ k : Int, 0 ≤ k → k ≤ c.cluster → ∃ l1 x l2, pool = l1 ++ x :: l2 ∧
    (c.state.voxel x).cluster = k ∧
    ∀ y ∈ l1, 0 ≤ (c.state.voxel y).cluster ∧ (c.state.voxel y).cluster < k

/-- The progress counter in the state `s` of a run started in `s0` with
`total` elements: the count of elements is `total`, the counter is `k`, and
since the start one line was printed for each assignment counted, none of
them `0`. -/
def Counted (s0 : State) (total : Nat) (s : State) (k : Int) : Prop :=
  s.total_number_of_elements = total ∧ (s.elements_assigned_to_clusters : Int) = k ∧
  ∃ out : List Nat, s.printed = s0.printed ++ out ∧
    out.length = s.elements_assigned_to_clusters ∧ ∀ v ∈ out, 0 < v

/-- The value of the progress counter at a control point of `bfcluster`: every
element that left the pool is counted but the seeds, one for each cluster. -/
def CountInv (s0 : State) (total : Nat) : Config → Prop
  | .outer s p c => Counted s0 total s (total - p.length - (c + 1))
  | .inner s _ p c => Counted s0 total s (total - p.length - c)
  | .done s c => Counted s0 total s (total - (c + 1))

/-! ## The distance -/

theorem euclidean_distance_sq_eq (p p2 : VOXEL) :
    euclidean_distance_sq p p2 =
      (p.coordinate 0 - p2.coordinate 0) ^ 2 + (p.coordinate 1 - p2.coordinate 1) ^ 2
        + (p.coordinate 2 - p2.coordinate 2) ^ 2 := by
  simp [euclidean_distance_sq, List.finRange, List.foldl]

theorem euclidean_distance_sq_comm (p p2 : VOXEL) :
    euclidean_distance_sq p p2 = euclidean_distance_sq p2 p := by
  rw [euclidean_distance_sq_eq, euclidean_distance_sq_eq]; ring

theorem euclidean_distance_sq_nonneg (p p2 : VOXEL) : 0 ≤ euclidean_distance_sq p p2 := by
  rw [euclidean_distance_sq_eq]; positivity

theorem euclidean_distance_sq_congr {p p' q q' : VOXEL}
    (hp : p'.coordinate = p.coordinate) (hq : q'.coordinate = q.coordinate) :
    euclidean_distance_sq p' q' = euclidean_distance_sq p q := by
  simp [euclidean_distance_sq, hp, hq]

theorem near_comm (s : State) (d : Threshold) (i j : Nat) : near s d i j = near s d j i := by
  unfold near; rw [euclidean_distance_sq_comm]

theorem near_congr {s s' : State} (h : ∀ i, (s'.voxel i).coordinate = (s.voxel i).coordinate)
    (d : Threshold) (i j : Nat) : near s' d i j = near s d i j := by
  unfold near; rw [euclidean_distance_sq_congr (h i) (h j)]

/-! ## The scan of `get_neighbours` -/

theorem count_assigned_voxel (s : State) : s.count_assigned.voxel = s.voxel := rfl

theorem set_cluster_coordinate (s : State) (v : Nat) (c : Int) (w : Nat) :
    ((s.set_cluster v c).voxel w).coordinate = (s.voxel w).coordinate := by
  unfold State.set_cluster
  by_cases h : w = v <;> simp [h]

theorem set_cluster_cluster (s : State) (v : Nat) (c : Int) (w : Nat) :
    ((s.set_cluster v c).voxel w).cluster = if w = v then c else (s.voxel w).cluster := by
  unfold State.set_cluster
  by_cases h : w = v <;> simp [h]

/-- What the scan loop computes: the kept nodes are those that fail the
distance test, the neighbours those that pass it (last found first), the
coordinates stay and the neighbours get the cluster of the centre. -/
theorem get_neighbours_loop_spec (p : Nat) (d : Threshold) (es : List Nat) :
    ∀ (s : State) (prev : List Nat),
      (get_neighbours_loop p d s es prev).kept = es.filter (fun e => !near s d p e) ∧
      (get_neighbours_loop p d s es prev).neighbour
        = (es.filter (fun e => near s d p e)).reverse ++ prev ∧
      (∀ i, ((get_neighbours_loop p d s es prev).state.voxel i).coordinate
        = (s.voxel i).coordinate) ∧
      (∀ i, ((get_neighbours_loop p d s es prev).state.voxel i).cluster
        = if i ∈ es ∧ near s d p i = true then (s.voxel p).cluster else (s.voxel i).cluster) := by
  induction es with
  | nil => intro s prev; simp [get_neighbours_loop]
  | cons e es ih =>
    intro s prev
    by_cases hn : near s d p e = true
    · have hn' : within_distance (euclidean_distance_sq (s.voxel p) (s.voxel e)) d = true := hn
      have hstep : get_neighbours_loop p d s (e :: es) prev
          = get_neighbours_loop p d (s.count_assigned.set_cluster e (s.voxel p).cluster) es
              (e :: prev) := by
        simp only [get_neighbours_loop, hn', if_true]; rfl
      have hco : ∀ i, ((s.count_assigned.set_cluster e (s.voxel p).cluster).voxel i).coordinate
          = (s.voxel i).coordinate := by
        intro i; rw [set_cluster_coordinate]; rfl
      have hnear : ∀ j, near (s.count_assigned.set_cluster e (s.voxel p).cluster) d p j
          = near s d p j := fun j => near_congr hco d p j
      obtain ⟨h1, h2, h3, h4⟩ := ih (s.count_assigned.set_cluster e (s.voxel p).cluster) (e :: prev)
      rw [hstep]
      refine ⟨?_, ?_, ?_, ?_⟩
      · rw [h1]; simp [hnear, hn]
      · rw [h2]; simp [hnear, hn]
      · intro i; rw [h3, hco]
      · intro i
        rw [h4, hnear]
        simp only [set_cluster_cluster, count_assigned_voxel, List.mem_cons]
        by_cases hie : i = e
        · subst hie; simp [hn]
        · by_cases hpe : p = e
          · subst hpe; simp [hie]
          · simp [hie, hpe]
    · have hn' : ¬ within_distance (euclidean_distance_sq (s.voxel p) (s.voxel e)) d = true := hn
      have hstep : get_neighbours_loop p d s (e :: es) prev
          = ⟨(get_neighbours_loop p d s es prev).state,
              e :: (get_neighbours_loop p d s es prev).kept,
              (get_neighbours_loop p d s es prev).neighbour⟩ := by
        simp only [get_neighbours_loop, hn', if_false]; rfl
      obtain ⟨h1, h2, h3, h4⟩ := ih s prev
      rw [hstep]
      refine ⟨?_, ?_, h3, ?_⟩
      · show e :: _ = _
        rw [h1]; simp [hn]
      · show (get_neighbours_loop p d s es prev).neighbour = _
        rw [h2]; simp [hn]
      · intro i
        show ((get_neighbours_loop p d s es prev).state.voxel i).cluster = _
        rw [h4]
        by_cases hie : i = e
        · subst hie; simp [hn]
        · simp [hie]

/-- The function `get_neighbours` when neither the head of the pool nor the
centre is unassigned: the head stays in the pool. -/
theorem get_neighbours_assigned (p : Nat) (s : State) (head : Nat) (rest : List Nat)
    (d : Threshold) (hh : (s.voxel head).cluster ≠ -1) (hp : (s.voxel p).cluster ≠ -1) :
    (get_neighbours p s head rest d).pool = head :: rest.filter (fun e => !near s d p e) ∧
    (get_neighbours p s head rest d).neighbour = (rest.filter (fun e => near s d p e)).reverse ∧
    (∀ i, ((get_neighbours p s head rest d).state.voxel i).coordinate
      = (s.voxel i).coordinate) ∧
    (∀ i, ((get_neighbours p s head rest d).state.voxel i).cluster
      = if i ∈ rest ∧ near s d p i = true then (s.voxel p).cluster else (s.voxel i).cluster) := by
  obtain ⟨h1, h2, h3, h4⟩ := get_neighbours_loop_spec p d rest s []
  have hhead : ((get_neighbours_loop p d s rest []).state.voxel head).cluster ≠ -1 := by
    rw [h4]; split <;> assumption
  have hstep : get_neighbours p s head rest d
      = ⟨(get_neighbours_loop p d s rest []).state,
          head :: (get_neighbours_loop p d s rest []).kept,
          (get_neighbours_loop p d s rest []).neighbour⟩ := by
    unfold get_neighbours
    simp only [hhead, false_and, if_false]
  rw [hstep]
  refine ⟨?_, ?_, h3, h4⟩
  · show head :: _ = _
    rw [h1]
  · show (get_neighbours_loop p d s rest []).neighbour = _
    rw [h2]; simp

/-! ## The inner loop of `bfcluster` -/

/-- One query of the region growth keeps the invariant: the first node `n` of
the frontier is the centre, the neighbours found go to the end of the
frontier and leave the pool, whose head stays. -/
theorem grow_step {s0 : State} {pool : List Nat} {d : Threshold} {h : Nat} {t : List Nat}
    {c : Int} {sb s : State} {n : Nat} {f q : List Nat}
    (hc : c ≠ -1) (ht : ∀ i ∈ t, i ∈ pool)
    (hinv : GrowInv s0 pool d h t c sb s (n :: f) q) :
    ∃ q', (get_neighbours n s h q d).pool = h :: q' ∧
      q'.length + (get_neighbours n s h q d).neighbour.length = q.length ∧
      GrowInv s0 pool d h t c sb (get_neighbours n s h q d).state
        (f ++ (get_neighbours n s h q d).neighbour) q' := by
  have hhq : h ∉ q := (List.nodup_cons.mp hinv.nodup).1
  have hn := hinv.sub_front n (List.mem_cons_self n f)
  have hnc : (s.voxel n).cluster = c := by
    rcases hn.1 with h1 | h1
    · rw [h1]; exact hinv.seed
    · exact hinv.members n h1 hn.2
  have hnr : Relation.ReflTransGen (linked s0 pool d) h n := by
    rcases hn.1 with h1 | h1
    · rw [h1]
    · exact hinv.sound n h1 hn.2
  obtain ⟨h1, h2, h3, h4⟩ := get_neighbours_assigned n s h q d
    (by rw [hinv.seed]; exact hc) (by rw [hnc]; exact hc)
  have hnear : ∀ i j, near s d i j = near s0 d i j := fun i j => near_congr hinv.coords d i j
  refine ⟨q.filter (fun e => !near s d n e), h1, ?_, ?_⟩
  · rw [h2, List.length_reverse, q.length_eq_length_filter_add (fun e => near s d n e)]
    omega
  rw [h2]
  have hq' : ∀ i, i ∈ q.filter (fun e => !near s d n e) ↔ i ∈ q ∧ near s0 d n i = false := by
    intro i; simp [List.mem_filter, hnear]
  have hnew : ∀ i, i ∈ (q.filter (fun e => near s d n e)).reverse
      ↔ i ∈ q ∧ near s0 d n i = true := by
    intro i; simp [List.mem_filter, hnear]
  have hcl : ∀ i, ((get_neighbours n s h q d).state.voxel i).cluster
      = if i ∈ q ∧ near s0 d n i = true then c else (s.voxel i).cluster := by
    intro i; rw [h4, hnear, hnc]
  constructor
  · exact hinv.nodup.sublist (List.Sublist.cons₂ h (List.filter_sublist q))
  · intro i hi; exact hinv.sub_pool i ((hq' i).mp hi).1
  · intro i hi
    rcases List.mem_append.mp hi with hi | hi
    · have := hinv.sub_front i (List.mem_cons_of_mem n hi)
      exact ⟨this.1, fun hiq => this.2 ((hq' i).mp hiq).1⟩
    · have hi' := (hnew i).mp hi
      refine ⟨Or.inr (hinv.sub_pool i hi'.1), fun hiq => ?_⟩
      have := ((hq' i).mp hiq).2
      rw [hi'.2] at this; exact Bool.noConfusion this
  · intro i; rw [h3, hinv.coords]
  · intro i hi
    have hi' := (hq' i).mp hi
    rw [hcl, if_neg (by rw [hi'.2]; simp)]
    exact hinv.unassigned i hi'.1
  · rw [hcl, if_neg (fun hx => hhq hx.1)]; exact hinv.seed
  · intro i hit hiq
    rw [hcl]
    split
    · rfl
    · rename_i hx
      refine hinv.members i hit (fun hq => hiq ((hq' i).mpr ⟨hq, ?_⟩))
      cases hb : near s0 d n i
      · rfl
      · exact absurd ⟨hq, hb⟩ hx
  · intro i hih hit
    rw [hcl, if_neg (fun hx => hit (hinv.sub_pool i hx.1))]
    exact hinv.frame i hih hit
  · intro i hit hiq
    by_cases hq : i ∈ q
    · have hb : near s0 d n i = true := by
        cases hb : near s0 d n i
        · exact absurd ((hq' i).mpr ⟨hq, hb⟩) hiq
        · rfl
      exact hnr.tail ⟨ht i hit, hb⟩
    · exact hinv.sound i hit hq
  · intro i hi hiq
    by_cases hq : i ∈ q
    · have hb : near s0 d n i = true := by
        cases hb : near s0 d n i
        · exact absurd ((hq' i).mpr ⟨hq, hb⟩) hiq
        · rfl
      exact Or.inl (List.mem_append.mpr (Or.inr ((hnew i).mpr ⟨hq, hb⟩)))
    · rcases hinv.complete i hi hq with h5 | h5
      · rcases List.mem_cons.mp h5 with h6 | h6
        · right; intro j hj; rw [h6]; exact ((hq' j).mp hj).2
        · exact Or.inl (List.mem_append.mpr (Or.inl h6))
      · right; intro j hj; exact h5 j ((hq' j).mp hj).1

/-- The inner loop returns when it has more tests than the frontier and the
pool have nodes, with an empty frontier, the same head of the pool and the
invariant. -/
theorem bfcluster_grow_spec {s0 : State} {pool : List Nat} {d : Threshold} {h : Nat}
    {t : List Nat} {c : Int} {sb : State} (hc : c ≠ -1) (ht : ∀ i ∈ t, i ∈ pool) :
    ∀ (fuel : Nat) (s : State) (f q : List Nat),
      GrowInv s0 pool d h t c sb s f q → f.length + q.length < fuel →
      ∃ s' q', bfcluster_grow d fuel s f (h :: q) = some (s', h :: q') ∧
        q'.length ≤ q.length ∧ GrowInv s0 pool d h t c sb s' [] q' := by
  intro fuel
  induction fuel with
  | zero => intro s f q _ hlt; omega
  | succ fuel ih =>
    intro s f q hinv hlt
    cases f with
    | nil => exact ⟨s, q, by simp [bfcluster_grow], le_refl _, hinv⟩
    | cons n f =>
      obtain ⟨q', hpool, hlen, hinv'⟩ := grow_step hc ht hinv
      have hlt' : (f ++ (get_neighbours n s h q d).neighbour).length + q'.length < fuel := by
        rw [List.length_append]; simp only [List.length_cons] at hlt; omega
      obtain ⟨s', q'', hrun, hle, hfin⟩ := ih _ _ q' hinv' hlt'
      refine ⟨s', q'', ?_, by omega, hfin⟩
      rw [bfcluster_grow, hpool]
      exact hrun

/-! ## Chains of linked points -/

theorem reach_mem {s0 : State} {pool : List Nat} {d : Threshold} {x y : Nat}
    (hx : x ∈ pool) (h : Relation.ReflTransGen (linked s0 pool d) x y) : y ∈ pool := by
  induction h with
  | refl => exact hx
  | tail _ hl _ => exact hl.1

theorem reach_symm {s0 : State} {pool : List Nat} {d : Threshold} {x y : Nat}
    (hx : x ∈ pool) (h : Relation.ReflTransGen (linked s0 pool d) x y) :
    Relation.ReflTransGen (linked s0 pool d) y x := by
  induction h with
  | refl => exact Relation.ReflTransGen.refl
  | @tail b c hxb hbc ih =>
    have hb : b ∈ pool := reach_mem hx hxb
    have hcb : linked s0 pool d c b := ⟨hb, by rw [near_comm]; exact hbc.2⟩
    exact Relation.ReflTransGen.head hcb ih

/-- A set of input points that no link leaves is closed under chains. -/
theorem reach_closed {s0 : State} {pool : List Nat} {d : Threshold} {p : List Nat}
    (hcl : ∀ i ∈ pool, i ∉ p → ∀ j ∈ pool, near s0 d i j = true → j ∉ p)
    {x y : Nat} (hx : x ∈ pool) (hxp : x ∉ p)
    (h : Relation.ReflTransGen (linked s0 pool d) x y) : y ∉ p := by
  induction h with
  | refl => exact hxp
  | @tail b c hxb hbc ih => exact hcl b (reach_mem hx hxb) ih c hbc.1 hbc.2

/-! ## The outer loop of `bfcluster` -/

/-- The state in which the inner loop starts: the seed `h` has the new id and
is the only node of the frontier. -/
theorem grow_init {s0 : State} {pool : List Nat} {d : Threshold} {s : State} {h : Nat}
    {t : List Nat} {c : Int} (hinv : LoopInv s0 pool d s (h :: t) c) :
    GrowInv s0 pool d h t (c + 1) s (s.set_cluster h (c + 1)) [h] t := by
  constructor
  · exact hinv.nodup
  · intro i hi; exact hi
  · intro i hi
    rw [List.mem_singleton] at hi
    exact ⟨Or.inl hi, by rw [hi]; exact (List.nodup_cons.mp hinv.nodup).1⟩
  · intro i; rw [set_cluster_coordinate, hinv.coords]
  · intro i hi
    have hne : i ≠ h := fun e => (List.nodup_cons.mp hinv.nodup).1 (e ▸ hi)
    rw [set_cluster_cluster, if_neg hne]
    exact hinv.unassigned i (List.mem_cons_of_mem h hi)
  · rw [set_cluster_cluster, if_pos rfl]
  · intro i hi hni; exact absurd hi hni
  · intro i hne _; rw [set_cluster_cluster, if_neg hne]
  · intro i hi hni; exact absurd hi hni
  · intro i hi hni
    rcases hi with hi | hi
    · exact Or.inl (by rw [hi]; exact List.mem_singleton_self h)
    · exact absurd hi hni

/-- When the cluster of the seed `h` is fully grown, deleting the head of the
pool gives back the invariant of the outer loop, with one more cluster. -/
theorem loop_step {s0 : State} {pool : List Nat} {d : Threshold} {s s2 : State} {h : Nat}
    {t q : List Nat} {c : Int} (hinv : LoopInv s0 pool d s (h :: t) c)
    (hg : GrowInv s0 pool d h t (c + 1) s s2 [] q) :
    LoopInv s0 pool d s2 q (c + 1) := by
  have hhp : h ∈ pool := hinv.sub h (List.mem_cons_self h t)
  have htp : ∀ i ∈ t, i ∈ pool := fun i hi => hinv.sub i (List.mem_cons_of_mem h hi)
  have hhq : h ∉ q := (List.nodup_cons.mp hg.nodup).1
  have hcount := hinv.counter
  -- the points of the new cluster
  have hnew : ∀ i, i = h ∨ i ∈ t → i ∉ q →
      (s2.voxel i).cluster = c + 1 ∧ Relation.ReflTransGen (linked s0 pool d) h i := by
    intro i hi hiq
    rcases hi with hi | hi
    · rw [hi]; exact ⟨hg.seed, Relation.ReflTransGen.refl⟩
    · exact ⟨hg.members i hi hiq, hg.sound i hi hiq⟩
  -- the points of the clusters before
  have hold : ∀ i ∈ pool, ¬ (i = h ∨ i ∈ t) →
      i ∉ h :: t ∧ (s2.voxel i).cluster = (s.voxel i).cluster ∧ (s2.voxel i).cluster ≤ c := by
    intro i hip hi
    have hne : i ≠ h := fun e => hi (Or.inl e)
    have hnt : i ∉ t := fun e => hi (Or.inr e)
    have hmem : i ∉ h :: t := fun e => hi (List.mem_cons.mp e)
    have hf := hg.frame i hne hnt
    exact ⟨hmem, hf, by rw [hf]; exact (hinv.range i hip hmem).2⟩
  constructor
  · exact (List.nodup_cons.mp hg.nodup).2
  · intro i hi; exact htp i (hg.sub_pool i hi)
  · exact hg.coords
  · exact hg.unassigned
  · intro i hi
    have hne : i ≠ h := fun e => hi (e ▸ hhp)
    have hnt : i ∉ t := fun e => hi (htp i e)
    rw [hg.frame i hne hnt]; exact hinv.frame i hi
  · omega
  · intro i hip hiq
    by_cases hi : i = h ∨ i ∈ t
    · rw [(hnew i hi hiq).1]; omega
    · obtain ⟨hmem, hf, _⟩ := hold i hip hi
      rw [hf]
      have := hinv.range i hip hmem
      omega
  · intro i hip hiq j hjp hij hjq
    by_cases hi : i = h ∨ i ∈ t
    · rcases hg.complete i hi hiq with h1 | h1
      · exact absurd h1 (List.not_mem_nil i)
      · rw [h1 j hjq] at hij; exact Bool.noConfusion hij
    · exact hinv.closed i hip (hold i hip hi).1 j hjp hij (List.mem_cons_of_mem h (hg.sub_pool j hjq))
  · intro i hip hiq j hjp hjq
    by_cases hi : i = h ∨ i ∈ t
    · by_cases hj : j = h ∨ j ∈ t
      · obtain ⟨hci, hri⟩ := hnew i hi hiq
        obtain ⟨hcj, hrj⟩ := hnew j hj hjq
        rw [hci, hcj]
        exact ⟨fun _ => (reach_symm hhp hri).trans hrj, fun _ => rfl⟩
      · obtain ⟨hmem, _, hle⟩ := hold j hjp hj
        rw [(hnew i hi hiq).1]
        constructor
        · intro e; omega
        · intro hr
          exact absurd (List.mem_cons.mpr hi)
            (reach_closed hinv.closed hjp hmem (reach_symm hip hr))
    · obtain ⟨hmem, hfi, hle⟩ := hold i hip hi
      by_cases hj : j = h ∨ j ∈ t
      · rw [(hnew j hj hjq).1]
        constructor
        · intro e; omega
        · intro hr
          exact absurd (List.mem_cons.mpr hj) (reach_closed hinv.closed hip hmem hr)
      · obtain ⟨hmemj, hfj, _⟩ := hold j hjp hj
        rw [hfi, hfj]
        exact hinv.classes i hip hmem j hjp hmemj
  · intro k hk0 hkc
    by_cases hk : k = c + 1
    · exact ⟨h, hhp, hhq, by rw [hg.seed, hk]⟩
    · obtain ⟨i, hip, hmem, hci⟩ := hinv.onto k hk0 (by omega)
      have hi : ¬ (i = h ∨ i ∈ t) := fun e => hmem (List.mem_cons.mpr e)
      exact ⟨i, hip, fun e => hmem (List.mem_cons_of_mem h (hg.sub_pool i e)),
        by rw [(hold i hip hi).2.1, hci]⟩

/-- The outer loop returns when it has more tests than the pool has nodes, and
ends with an empty pool and the invariant. -/
theorem bfcluster_loop_spec {s0 : State} {pool : List Nat} {d : Threshold} :
    ∀ (fuel : Nat) (s : State) (p : List Nat) (c : Int),
      LoopInv s0 pool d s p c → p.length < fuel →
      ∃ s' m, bfcluster_loop d fuel s p c = some (s', m) ∧ LoopInv s0 pool d s' [] m := by
  intro fuel
  induction fuel with
  | zero => intro s p c _ hlt; omega
  | succ fuel ih =>
    intro s p c hinv hlt
    cases p with
    | nil => exact ⟨s, c, by simp [bfcluster_loop], hinv⟩
    | cons h t =>
      have hc : c + 1 ≠ -1 := by have := hinv.counter; omega
      have htp : ∀ i ∈ t, i ∈ pool := fun i hi => hinv.sub i (List.mem_cons_of_mem h hi)
      obtain ⟨q, hpool, hlen, hg⟩ := grow_step hc htp (grow_init hinv)
      simp only [List.length_cons] at hlt
      obtain ⟨s2, q2, hrun, hle, hfin⟩ := bfcluster_grow_spec hc htp (fuel + 1) _ _ q hg
        (by rw [List.nil_append]; omega)
      obtain ⟨s', m, hrun', hend⟩ := ih s2 q2 (c + 1) (loop_step hinv hfin) (by omega)
      refine ⟨s', m, ?_, hend⟩
      rw [List.nil_append] at hrun
      rw [bfcluster_loop, hpool, hrun]
      exact hrun'

/-- The function `bfcluster` returns on every pool of pairwise different,
unassigned voxels, and the invariant holds at the end. -/
theorem bfcluster_spec (s : State) (pool : List Nat) (d : Threshold)
    (hnd : pool.Nodup) (hun : ∀ i ∈ pool, (s.voxel i).cluster = -1) :
    ∃ s' m, bfcluster s pool d = some (s', m) ∧ LoopInv s pool d s' [] m := by
  have hinit : LoopInv s pool d s pool (-1) := by
    constructor
    · exact hnd
    · intro i hi; exact hi
    · intro i; rfl
    · exact hun
    · intro i _; rfl
    · exact le_refl _
    · intro i hi hni; exact absurd hi hni
    · intro i hi hni; exact absurd hi hni
    · intro i hi hni; exact absurd hi hni
    · intro k hk0 hk; omega
  exact bfcluster_loop_spec (pool.length + 1) s pool (-1) hinit (Nat.lt_succ_self _)

/-! ## The partition computed by `bfcluster` -/

/-- C2, total assignment: on a pool of pairwise different, unassigned voxels
`bfcluster` returns some `m`, and every point of the pool ends with a cluster
id between `0` and `m`; none is left at `-1`. -/
theorem bfcluster_total_assignment (s : State) (pool : List Nat) (d : Threshold)
    (hnd : pool.Nodup) (hun : ∀ i ∈ pool, (s.voxel i).cluster = -1) :
    ∃ s' m, bfcluster s pool d = some (s', m) ∧
      ∀ i ∈ pool, 0 ≤ (s'.voxel i).cluster ∧ (s'.voxel i).cluster ≤ m ∧
        (s'.voxel i).cluster ≠ -1 := by
  obtain ⟨s', m, hrun, hinv⟩ := bfcluster_spec s pool d hnd hun
  refine ⟨s', m, hrun, fun i hi => ?_⟩
  have := hinv.range i hi (List.not_mem_nil i)
  exact ⟨this.1, this.2, by omega⟩

/-- C2 at the two points `(0,0,0)` and `(5,0,0)` with the threshold `1.5`. -/
theorem bfcluster_total_assignment_witness :
    [0, 1].Nodup ∧ (∀ i ∈ [0, 1], ((heap_of [(0, 0, 0), (5, 0, 0)]).voxel i).cluster = -1) ∧
    ∃ s' m, bfcluster (heap_of [(0, 0, 0), (5, 0, 0)]) [0, 1] threshold_1_5 = some (s', m) ∧
      ∀ i ∈ [0, 1], 0 ≤ (s'.voxel i).cluster ∧ (s'.voxel i).cluster ≤ m ∧
        (s'.voxel i).cluster ≠ -1 :=
  ⟨by decide, by decide,
    bfcluster_total_assignment (heap_of [(0, 0, 0), (5, 0, 0)]) [0, 1] threshold_1_5
      (by decide) (by decide)⟩

/-- C3, contiguous ids: on a non-empty pool of pairwise different, unassigned
voxels the value `m` that `bfcluster` returns is not negative, it is the
greatest cluster id given, every `k` from `0` to `m` is the id of a point of
the pool, and the number of different ids is `m + 1`. -/
theorem bfcluster_contiguous_ids (s : State) (pool : List Nat) (d : Threshold)
    (hne : pool ≠ []) (hnd : pool.Nodup) (hun : ∀ i ∈ pool, (s.voxel i).cluster = -1) :
    ∃ s' m, bfcluster s pool d = some (s', m) ∧ 0 ≤ m ∧
      (∃ i ∈ pool, (s'.voxel i).cluster = m) ∧
      (∀ i ∈ pool, (s'.voxel i).cluster ≤ m) ∧
      (∀ k : Int, 0 ≤ k → k ≤ m → ∃ i ∈ pool, (s'.voxel i).cluster = k) ∧
      (((pool.map (fun i => (s'.voxel i).cluster)).toFinset.card : Int) = m + 1) := by
  obtain ⟨s', m, hrun, hinv⟩ := bfcluster_spec s pool d hnd hun
  obtain ⟨a, ha⟩ := List.exists_mem_of_ne_nil pool hne
  have hm : 0 ≤ m := by
    have := hinv.range a ha (List.not_mem_nil a); omega
  have honto : ∀ k : Int, 0 ≤ k → k ≤ m → ∃ i ∈ pool, (s'.voxel i).cluster = k := by
    intro k hk0 hkm
    obtain ⟨i, hi, _, hc⟩ := hinv.onto k hk0 hkm
    exact ⟨i, hi, hc⟩
  refine ⟨s', m, hrun, hm, honto m hm (le_refl m),
    fun i hi => (hinv.range i hi (List.not_mem_nil i)).2, honto, ?_⟩
  have hset : (pool.map (fun i => (s'.voxel i).cluster)).toFinset = Finset.Icc 0 m := by
    ext k
    simp only [List.mem_toFinset, List.mem_map, Finset.mem_Icc]
    constructor
    · rintro ⟨i, hi, rfl⟩
      exact hinv.range i hi (List.not_mem_nil i)
    · rintro ⟨hk0, hkm⟩
      exact honto k hk0 hkm
  rw [hset, Int.card_Icc]
  omega

/-- C3 at the two points `(0,0,0)` and `(5,0,0)` with the threshold `1.5`. -/
theorem bfcluster_contiguous_ids_witness :
    [0, 1] ≠ [] ∧ [0, 1].Nodup ∧
    (∀ i ∈ [0, 1], ((heap_of [(0, 0, 0), (5, 0, 0)]).voxel i).cluster = -1) ∧
    ∃ s' m, bfcluster (heap_of [(0, 0, 0), (5, 0, 0)]) [0, 1] threshold_1_5 = some (s', m) ∧
      0 ≤ m ∧
      (∃ i ∈ [0, 1], (s'.voxel i).cluster = m) ∧
      (∀ i ∈ [0, 1], (s'.voxel i).cluster ≤ m) ∧
      (∀ k : Int, 0 ≤ k → k ≤ m → ∃ i ∈ [0, 1], (s'.voxel i).cluster = k) ∧
      ((([0, 1].map (fun i => (s'.voxel i).cluster)).toFinset.card : Int) = m + 1) :=
  ⟨by decide, by decide, by decide,
    bfcluster_contiguous_ids (heap_of [(0, 0, 0), (5, 0, 0)]) [0, 1] threshold_1_5
      (by decide) (by decide) (by decide)⟩

theorem linked_perm (s0 : State) {pool pool' : List Nat} (d : Threshold)
    (hp : pool.Perm pool') : linked s0 pool d = linked s0 pool' d := by
  funext x y
  unfold linked
  rw [hp.mem_iff]

/-- C4, order independence: the runs of `bfcluster` on a pool of pairwise
different, unassigned voxels and on any permutation of it both return, and two
points share a cluster id after one run exactly when they do after the
other. -/
theorem bfcluster_order_independent (s : State) (pool pool' : List Nat) (d : Threshold)
    (hp : pool.Perm pool') (hnd : pool.Nodup) (hun : ∀ i ∈ pool, (s.voxel i).cluster = -1) :
    ∃ s1 m1 s2 m2, bfcluster s pool d = some (s1, m1) ∧ bfcluster s pool' d = some (s2, m2) ∧
      ∀ a ∈ pool, ∀ b ∈ pool,
        ((s1.voxel a).cluster = (s1.voxel b).cluster ↔
          (s2.voxel a).cluster = (s2.voxel b).cluster) := by
  obtain ⟨s1, m1, hrun1, hinv1⟩ := bfcluster_spec s pool d hnd hun
  obtain ⟨s2, m2, hrun2, hinv2⟩ := bfcluster_spec s pool' d (hp.nodup_iff.mp hnd)
    (fun i hi => hun i (hp.mem_iff.mpr hi))
  refine ⟨s1, m1, s2, m2, hrun1, hrun2, fun a ha b hb => ?_⟩
  rw [hinv1.classes a ha (List.not_mem_nil a) b hb (List.not_mem_nil b),
    hinv2.classes a (hp.mem_iff.mp ha) (List.not_mem_nil a) b (hp.mem_iff.mp hb)
      (List.not_mem_nil b),
    linked_perm s d hp]

/-- C4 at the points `(0,0,0)`, `(1,0,0)`, `(5,0,0)` with the threshold `1.5`,
the pool taken in the orders `0, 1, 2` and `2, 0, 1`. -/
theorem bfcluster_order_independent_witness :
    [0, 1, 2].Perm [2, 0, 1] ∧ [0, 1, 2].Nodup ∧
    (∀ i ∈ [0, 1, 2], ((heap_of [(0, 0, 0), (1, 0, 0), (5, 0, 0)]).voxel i).cluster = -1) ∧
    ∃ s1 m1 s2 m2,
      bfcluster (heap_of [(0, 0, 0), (1, 0, 0), (5, 0, 0)]) [0, 1, 2] threshold_1_5
        = some (s1, m1) ∧
      bfcluster (heap_of [(0, 0, 0), (1, 0, 0), (5, 0, 0)]) [2, 0, 1] threshold_1_5
        = some (s2, m2) ∧
      ∀ a ∈ [0, 1, 2], ∀ b ∈ [0, 1, 2],
        ((s1.voxel a).cluster = (s1.voxel b).cluster ↔
          (s2.voxel a).cluster = (s2.voxel b).cluster) :=
  ⟨by decide, by decide, by decide,
    bfcluster_order_independent (heap_of [(0, 0, 0), (1, 0, 0), (5, 0, 0)]) [0, 1, 2] [2, 0, 1]
      threshold_1_5 (by decide) (by decide) (by decide)⟩

/-! ## The boundary of the distance test and the scenarios -/

theorem threshold_1_5_square : threshold_1_5.square = 9 / 4 := by
  rw [← Rat.num_div_den threshold_1_5.square]
  show ((9 : ℤ) : ℚ) / ((4 : ℕ) : ℚ) = 9 / 4
  norm_num

/-- The test of `get_neighbours` is the comparison of the real distance with
the real threshold: for a threshold that is not negative, of square `square`,
it holds exactly when `sqrt(dist) <= sqrt(square)`. -/
theorem within_distance_iff_sqrt (dist : Int) (t : Threshold) (hneg : t.negative = false)
    (hsq : 0 ≤ t.square) :
    within_distance dist t = true ↔ Real.sqrt (dist : ℝ) ≤ Real.sqrt (t.square : ℝ) := by
  have hsq' : (0 : ℝ) ≤ (t.square : ℝ) := by exact_mod_cast hsq
  rw [Real.sqrt_le_sqrt_iff hsq']
  unfold within_distance
  simp only [hneg, Bool.not_false, Bool.true_and, decide_eq_true_eq]
  constructor
  · intro h; exact_mod_cast h
  · intro h; exact_mod_cast h

/-- A negative threshold lets no point pass the test of `get_neighbours`. -/
theorem within_distance_negative (dist : Int) (t : Threshold) (hneg : t.negative = true) :
    within_distance dist t = false := by
  unfold within_distance; simp [hneg]

/-- C6, chained connectivity: on the points `(0,0,0)`, `(1,0,0)`, `(2,0,0)`
with the threshold `1.5`, in any order of the three in the pool, `bfcluster`
returns `0` and gives the three points cluster `0`, although the end points
fail the distance test (squared distance `4`, above `9/4`). -/
theorem bfcluster_chained (pool : List Nat) (hp : pool.Perm [0, 1, 2]) :
    (∃ s', bfcluster (heap_of [(0, 0, 0), (1, 0, 0), (2, 0, 0)]) pool threshold_1_5
        = some (s', 0) ∧
      (s'.voxel 0).cluster = 0 ∧ (s'.voxel 1).cluster = 0 ∧ (s'.voxel 2).cluster = 0) ∧
    euclidean_distance_sq ((heap_of [(0, 0, 0), (1, 0, 0), (2, 0, 0)]).voxel 0)
      ((heap_of [(0, 0, 0), (1, 0, 0), (2, 0, 0)]).voxel 2) = 4 ∧
    within_distance (euclidean_distance_sq ((heap_of [(0, 0, 0), (1, 0, 0), (2, 0, 0)]).voxel 0)
      ((heap_of [(0, 0, 0), (1, 0, 0), (2, 0, 0)]).voxel 2)) threshold_1_5 = false := by
  refine ⟨?_, by decide, by decide⟩
  have hmem : ∀ i, i ∈ pool ↔ i ∈ [0, 1, 2] := fun i => hp.mem_iff
  have h0 : 0 ∈ pool := (hmem 0).mpr (by decide)
  have h1 : 1 ∈ pool := (hmem 1).mpr (by decide)
  have h2 : 2 ∈ pool := (hmem 2).mpr (by decide)
  have hun0 : ∀ i ∈ [0, 1, 2],
      ((heap_of [(0, 0, 0), (1, 0, 0), (2, 0, 0)]).voxel i).cluster = -1 := by decide
  obtain ⟨s', m, hrun, hinv⟩ := bfcluster_spec (heap_of [(0, 0, 0), (1, 0, 0), (2, 0, 0)])
    pool threshold_1_5 (hp.nodup_iff.mpr (by decide)) (fun i hi => hun0 i ((hmem i).mp hi))
  have e01 : (s'.voxel 0).cluster = (s'.voxel 1).cluster :=
    (hinv.classes 0 h0 (List.not_mem_nil 0) 1 h1 (List.not_mem_nil 1)).mpr
      (Relation.ReflTransGen.single ⟨h1, by decide⟩)
  have e12 : (s'.voxel 1).cluster = (s'.voxel 2).cluster :=
    (hinv.classes 1 h1 (List.not_mem_nil 1) 2 h2 (List.not_mem_nil 2)).mpr
      (Relation.ReflTransGen.single ⟨h2, by decide⟩)
  have hall : ∀ i ∈ pool, (s'.voxel i).cluster = (s'.voxel 0).cluster := by
    intro i hi
    have hi' := (hmem i).mp hi
    simp only [List.mem_cons, List.mem_singleton, List.not_mem_nil, or_false] at hi'
    rcases hi' with rfl | rfl | rfl
    · rfl
    · exact e01.symm
    · exact (e01.trans e12).symm
  have hm : 0 ≤ m := le_trans (hinv.range 0 h0 (List.not_mem_nil 0)).1
    (hinv.range 0 h0 (List.not_mem_nil 0)).2
  obtain ⟨i, hi, _, hci⟩ := hinv.onto 0 (le_refl 0) hm
  obtain ⟨j, hj, _, hcj⟩ := hinv.onto m hm (le_refl m)
  have hz : (s'.voxel 0).cluster = 0 := by rw [← hall i hi, hci]
  have hmz : m = 0 := by rw [← hcj, hall j hj, hz]
  subst hmz
  exact ⟨s', hrun, hz, by rw [← e01, hz], by rw [← e12, ← e01, hz]⟩

/-- C6 with the pool in the order `(2,0,0)`, `(0,0,0)`, `(1,0,0)`. -/
theorem bfcluster_chained_witness :
    [2, 0, 1].Perm [0, 1, 2] ∧
    (∃ s', bfcluster (heap_of [(0, 0, 0), (1, 0, 0), (2, 0, 0)]) [2, 0, 1] threshold_1_5
        = some (s', 0) ∧
      (s'.voxel 0).cluster = 0 ∧ (s'.voxel 1).cluster = 0 ∧ (s'.voxel 2).cluster = 0) :=
  ⟨by decide, (bfcluster_chained [2, 0, 1] (by decide)).1⟩

/-- C8, empty input: on the empty pool `bfcluster` returns `-1` for every
threshold and leaves the state as it was. -/
theorem bfcluster_empty (s : State) (d : Threshold) : bfcluster s [] d = some (s, -1) := rfl

/-- C9, single point: on a pool of one point `bfcluster` returns `0` for every
threshold, a negative one included, and the only change is that the point gets
cluster `0`. -/
theorem bfcluster_single (s : State) (a : Nat) (d : Threshold) :
    bfcluster s [a] d = some (s.set_cluster a 0, 0) ∧
    ((s.set_cluster a 0).voxel a).cluster = 0 := by
  constructor
  · simp [bfcluster, bfcluster_loop, bfcluster_grow, get_neighbours, get_neighbours_loop,
      set_cluster_cluster, delete_head]
  · simp [set_cluster_cluster]

/-- C10, metric laws: the sum of squares under the square root of
`euclidean_distance` is not negative, symmetric, and zero exactly when the two
voxels have the same three coordinates; so the distance, its real square root,
is not negative, symmetric, and zero exactly then. -/
theorem euclidean_distance_metric (a b : VOXEL) :
    0 ≤ euclidean_distance_sq a b ∧
    euclidean_distance_sq a b = euclidean_distance_sq b a ∧
    (euclidean_distance_sq a b = 0 ↔ ∀ i, a.coordinate i = b.coordinate i) ∧
    0 ≤ Real.sqrt (euclidean_distance_sq a b : ℝ) ∧
    Real.sqrt (euclidean_distance_sq a b : ℝ) = Real.sqrt (euclidean_distance_sq b a : ℝ) ∧
    (Real.sqrt (euclidean_distance_sq a b : ℝ) = 0 ↔ ∀ i, a.coordinate i = b.coordinate i) := by
  have hnn := euclidean_distance_sq_nonneg a b
  have hz : euclidean_distance_sq a b = 0 ↔ ∀ i, a.coordinate i = b.coordinate i := by
    rw [euclidean_distance_sq_eq]
    constructor
    · intro h i
      have p0 := sq_nonneg (a.coordinate 0 - b.coordinate 0)
      have p1 := sq_nonneg (a.coordinate 1 - b.coordinate 1)
      have p2 := sq_nonneg (a.coordinate 2 - b.coordinate 2)
      have h0 : (a.coordinate 0 - b.coordinate 0) ^ 2 = 0 := by omega
      have h1 : (a.coordinate 1 - b.coordinate 1) ^ 2 = 0 := by omega
      have h2 : (a.coordinate 2 - b.coordinate 2) ^ 2 = 0 := by omega
      have e0 := sub_eq_zero.mp (pow_eq_zero_iff (two_ne_zero) |>.mp h0)
      have e1 := sub_eq_zero.mp (pow_eq_zero_iff (two_ne_zero) |>.mp h1)
      have e2 := sub_eq_zero.mp (pow_eq_zero_iff (two_ne_zero) |>.mp h2)
      fin_cases i
      · exact e0
      · exact e1
      · exact e2
    · intro h
      rw [h 0, h 1, h 2]; ring
  refine ⟨hnn, euclidean_distance_sq_comm a b, hz, Real.sqrt_nonneg _, ?_, ?_⟩
  · rw [euclidean_distance_sq_comm]
  · rw [Real.sqrt_eq_zero (by exact_mod_cast hnn), Int.cast_eq_zero]
    exact hz

/-! ## The function `get_neighbours` on every pool -/

/-- The two ways `get_neighbours` ends.  The nodes behind the head leave the
pool exactly when they pass the distance test; the head leaves it only when,
after the scan, its cluster is `-1` and it passes the test. -/
theorem get_neighbours_cases (p : Nat) (s : State) (head : Nat) (rest : List Nat)
    (d : Threshold) :
    ((get_neighbours p s head rest d).pool = head :: rest.filter (fun e => !near s d p e) ∧
      (get_neighbours p s head rest d).neighbour = (rest.filter (fun e => near s d p e)).reverse ∧
      (get_neighbours p s head rest d).state = (get_neighbours_loop p d s rest []).state ∧
      ¬ (((get_neighbours_loop p d s rest []).state.voxel head).cluster = -1 ∧
          near s d p head = true)) ∨
    ((get_neighbours p s head rest d).pool = rest.filter (fun e => !near s d p e) ∧
      (get_neighbours p s head rest d).neighbour
        = head :: (rest.filter (fun e => near s d p e)).reverse ∧
      (get_neighbours p s head rest d).state
        = ((get_neighbours_loop p d s rest []).state.count_assigned).set_cluster head
            ((get_neighbours_loop p d s rest []).state.voxel p).cluster ∧
      ((get_neighbours_loop p d s rest []).state.voxel head).cluster = -1 ∧
      near s d p head = true) := by
  obtain ⟨h1, h2, h3, _⟩ := get_neighbours_loop_spec p d rest s []
  have hnear : within_distance (euclidean_distance_sq
      ((get_neighbours_loop p d s rest []).state.voxel p)
      ((get_neighbours_loop p d s rest []).state.voxel head)) d = near s d p head :=
    near_congr h3 d p head
  rw [List.append_nil] at h2
  by_cases hrem : ((get_neighbours_loop p d s rest []).state.voxel head).cluster = -1 ∧
      near s d p head = true
  · right
    have hstep : get_neighbours p s head rest d
        = ⟨((get_neighbours_loop p d s rest []).state.count_assigned).set_cluster head
            ((get_neighbours_loop p d s rest []).state.voxel p).cluster,
          (get_neighbours_loop p d s rest []).kept,
          head :: (get_neighbours_loop p d s rest []).neighbour⟩ := by
      unfold get_neighbours
      simp only [hnear, hrem, and_self, if_true]
      rfl
    rw [hstep]
    exact ⟨h1, by rw [h2], rfl, hrem.1, hrem.2⟩
  · left
    have hstep : get_neighbours p s head rest d
        = ⟨(get_neighbours_loop p d s rest []).state,
          head :: (get_neighbours_loop p d s rest []).kept,
          (get_neighbours_loop p d s rest []).neighbour⟩ := by
      unfold get_neighbours
      simp only [hnear, hrem, if_false]
    rw [hstep]
    exact ⟨by rw [h1], h2, rfl, hrem⟩

/-- The lists `get_neighbours` gives back hold the nodes of the pool it got:
none is lost, none is added. -/
theorem get_neighbours_perm (p : Nat) (s : State) (head : Nat) (rest : List Nat)
    (d : Threshold) :
    ((get_neighbours p s head rest d).neighbour ++ (get_neighbours p s head rest d).pool).Perm
      (head :: rest) := by
  have hfp : ((rest.filter (fun e => near s d p e)).reverse
      ++ rest.filter (fun e => !near s d p e)).Perm rest :=
    ((List.reverse_perm _).append_right _).trans (List.filter_append_perm _ rest)
  rcases get_neighbours_cases p s head rest d with ⟨h1, h2, _, _⟩ | ⟨h1, h2, _, _⟩
  · rw [h1, h2]
    exact List.perm_middle.trans (hfp.cons head)
  · rw [h1, h2]
    exact hfp.cons head

theorem get_neighbours_length (p : Nat) (s : State) (head : Nat) (rest : List Nat)
    (d : Threshold) :
    (get_neighbours p s head rest d).neighbour.length
      + (get_neighbours p s head rest d).pool.length = rest.length + 1 := by
  have := (get_neighbours_perm p s head rest d).length_eq
  rw [List.length_append, List.length_cons] at this
  exact this

theorem get_neighbours_sublist (p : Nat) (s : State) (head : Nat) (rest : List Nat)
    (d : Threshold) : (get_neighbours p s head rest d).pool.Sublist (head :: rest) := by
  rcases get_neighbours_cases p s head rest d with ⟨h1, _, _, _⟩ | ⟨h1, _, _, _⟩
  · rw [h1]; exact List.Sublist.cons₂ head (List.filter_sublist rest)
  · rw [h1]; exact (List.filter_sublist rest).cons head

/-- The function `get_neighbours` changes no coordinate, and no voxel outside
the pool it got. -/
theorem get_neighbours_frame (p : Nat) (s : State) (head : Nat) (rest : List Nat)
    (d : Threshold) :
    (∀ i, ((get_neighbours p s head rest d).state.voxel i).coordinate
      = (s.voxel i).coordinate) ∧
    (∀ i, i ∉ head :: rest → ((get_neighbours p s head rest d).state.voxel i).cluster
      = (s.voxel i).cluster) ∧
    (get_neighbours p s head rest d).state.total_number_of_elements
      = s.total_number_of_elements := by
  obtain ⟨_, _, h3, h4⟩ := get_neighbours_loop_spec p d rest s []
  have htot : ∀ (es : List Nat) (s : State) (prev : List Nat),
      (get_neighbours_loop p d s es prev).state.total_number_of_elements
        = s.total_number_of_elements := by
    intro es
    induction es with
    | nil => intro s prev; rfl
    | cons e es ih =>
      intro s prev
      rw [get_neighbours_loop]
      split
      · rw [ih]; rfl
      · exact ih s prev
  rcases get_neighbours_cases p s head rest d with ⟨_, _, hs, _⟩ | ⟨_, _, hs, _⟩
  · rw [hs]
    refine ⟨h3, fun i hi => ?_, htot rest s []⟩
    rw [h4, if_neg (fun hx => hi (List.mem_cons_of_mem head hx.1))]
  · rw [hs]
    refine ⟨fun i => ?_, fun i hi => ?_, ?_⟩
    · rw [set_cluster_coordinate]; exact h3 i
    · have hne : i ≠ head := fun e => hi (e ▸ List.mem_cons_self head rest)
      rw [set_cluster_cluster, if_neg hne]
      show ((get_neighbours_loop p d s rest []).state.voxel i).cluster = _
      rw [h4, if_neg (fun hx => hi (List.mem_cons_of_mem head hx.1))]
    · exact htot rest s []

theorem bfcluster_run_succ (d : Threshold) (n : Nat) (c : Config) :
    bfcluster_run d (n + 1) c = bfcluster_step d (bfcluster_run d n c) :=
  Function.iterate_succ_apply' (bfcluster_step d) n c

theorem bfcluster_run_step (d : Threshold) (n : Nat) (c : Config) :
    bfcluster_run d (n + 1) c = bfcluster_run d n (bfcluster_step d c) :=
  Function.iterate_succ_apply (bfcluster_step d) n c

theorem bfcluster_run_add (d : Threshold) (m n : Nat) (c : Config) :
    bfcluster_run d (m + n) c = bfcluster_run d n (bfcluster_run d m c) := by
  unfold bfcluster_run
  rw [Nat.add_comm, Function.iterate_add_apply]

theorem bfcluster_run_done (d : Threshold) (n : Nat) (s : State) (m : Int) :
    bfcluster_run d n (.done s m) = .done s m := by
  induction n with
  | zero => rfl
  | succ n ih => rw [bfcluster_run_step]; exact ih

/-- When the inner loop of `bfcluster` returns, the moves from the inner test
lead to the next outer test, with the state and the pool it returns. -/
theorem bfcluster_grow_moves (d : Threshold) :
    ∀ (fuel : Nat) (s : State) (f p : List Nat) (c : Int) (s' : State) (p' : List Nat),
      bfcluster_grow d fuel s f p = some (s', p') →
      ∃ n, bfcluster_run d n (.inner s f p c) = .outer s' (delete_head p') c := by
  intro fuel
  induction fuel with
  | zero => intro s f p c s' p' h; simp [bfcluster_grow] at h
  | succ fuel ih =>
    intro s f p c s' p' h
    cases f with
    | nil =>
      simp only [bfcluster_grow, Option.some.injEq, Prod.mk.injEq] at h
      obtain ⟨rfl, rfl⟩ := h
      exact ⟨1, rfl⟩
    | cons n f =>
      cases p with
      | nil =>
        simp only [bfcluster_grow, Option.some.injEq, Prod.mk.injEq] at h
        obtain ⟨rfl, rfl⟩ := h
        exact ⟨1, rfl⟩
      | cons hd rest =>
        rw [bfcluster_grow] at h
        obtain ⟨k, hk⟩ := ih _ _ _ c s' p' h
        exact ⟨k + 1, by rw [bfcluster_run_step]; exact hk⟩

/-- When `bfcluster` returns, the moves from the outer test lead to the
`return` with the state and the value it returns. -/
theorem bfcluster_loop_moves (d : Threshold) :
    ∀ (fuel : Nat) (s : State) (p : List Nat) (c : Int) (s' : State) (m : Int),
      bfcluster_loop d fuel s p c = some (s', m) →
      ∃ n, bfcluster_run d n (.outer s p c) = .done s' m := by
  intro fuel
  induction fuel with
  | zero => intro s p c s' m h; simp [bfcluster_loop] at h
  | succ fuel ih =>
    intro s p c s' m h
    cases p with
    | nil =>
      simp only [bfcluster_loop, Option.some.injEq, Prod.mk.injEq] at h
      obtain ⟨rfl, rfl⟩ := h
      exact ⟨1, rfl⟩
    | cons hd rest =>
      rw [bfcluster_loop] at h
      cases hg : bfcluster_grow d (fuel + 1)
          (get_neighbours hd (s.set_cluster hd (c + 1)) hd rest d).state
          (get_neighbours hd (s.set_cluster hd (c + 1)) hd rest d).neighbour
          (get_neighbours hd (s.set_cluster hd (c + 1)) hd rest d).pool with
      | none => simp only [hg] at h; exact Option.noConfusion h
      | some r =>
        obtain ⟨s2, p2⟩ := r
        simp only [hg] at h
        obtain ⟨k1, hk1⟩ := bfcluster_grow_moves d _ _ _ _ (c + 1) s2 p2 hg
        obtain ⟨k2, hk2⟩ := ih s2 (delete_head p2) (c + 1) s' m h
        refine ⟨1 + k1 + k2, ?_⟩
        rw [bfcluster_run_add, bfcluster_run_add]
        show bfcluster_run d k2 (bfcluster_run d k1 (bfcluster_step d (.outer s (hd :: rest) c)))
          = _
        show bfcluster_run d k2 (bfcluster_run d k1 (.inner _ _ _ (c + 1))) = _
        rw [hk1, hk2]

theorem bfcluster_moves (d : Threshold) (s : State) (pool : List Nat) (s' : State) (m : Int)
    (h : bfcluster s pool d = some (s', m)) :
    ∃ n, bfcluster_run d n (bfcluster_start s pool) = .done s' m :=
  bfcluster_loop_moves d _ s pool (-1) s' m h

/-- The head of the pool and the first node of the frontier are assigned
during the growth of a cluster. -/
theorem grow_assigned {s0 : State} {pool : List Nat} {d : Threshold} {h : Nat} {t : List Nat}
    {c : Int} {sb s : State} {n : Nat} {f q : List Nat}
    (hinv : GrowInv s0 pool d h t c sb s (n :: f) q) :
    (s.voxel h).cluster = c ∧ (s.voxel n).cluster = c := by
  have hn := hinv.sub_front n (List.mem_cons_self n f)
  refine ⟨hinv.seed, ?_⟩
  rcases hn.1 with h1 | h1
  · rw [h1]; exact hinv.seed
  · exact hinv.members n h1 hn.2

/-- Every move of `bfcluster` keeps the invariant. -/
theorem conf_step {s0 : State} {pool : List Nat} {d : Threshold} (cfg : Config)
    (hinv : ConfInv s0 pool d cfg) : ConfInv s0 pool d (bfcluster_step d cfg) := by
  cases cfg with
  | outer s p c =>
    cases p with
    | nil => exact hinv
    | cons h t =>
      have hl : LoopInv s0 pool d s (h :: t) c := hinv
      have hc : c + 1 ≠ -1 := by have := hl.counter; omega
      have htp : ∀ i ∈ t, i ∈ pool := fun i hi => hl.sub i (List.mem_cons_of_mem h hi)
      obtain ⟨q, hpool, _, hg⟩ := grow_step hc htp (grow_init hl)
      rw [List.nil_append] at hg
      refine ⟨h, t, q, s, hpool, ?_, hg⟩
      rw [add_sub_cancel_right]; exact hl
  | inner s f p c =>
    obtain ⟨h, t, q, sb, hp, hl, hg⟩ := hinv
    subst hp
    have hc : c ≠ -1 := by have := hl.counter; omega
    have htp : ∀ i ∈ t, i ∈ pool := fun i hi => hl.sub i (List.mem_cons_of_mem h hi)
    cases f with
    | nil =>
      have hg' : GrowInv s0 pool d h t (c - 1 + 1) sb s [] q := by
        rw [sub_add_cancel]; exact hg
      have := loop_step hl hg'
      rw [sub_add_cancel] at this
      exact this
    | cons n f =>
      obtain ⟨q', hpool, _, hg'⟩ := grow_step hc htp hg
      exact ⟨h, t, q', sb, hpool, hl, hg'⟩
  | done s c => exact hinv

/-- The invariant holds at every control point of a run of `bfcluster` on a
pool of pairwise different, unassigned voxels. -/
theorem conf_reach (s : State) (pool : List Nat) (d : Threshold)
    (hnd : pool.Nodup) (hun : ∀ i ∈ pool, (s.voxel i).cluster = -1) (n : Nat) :
    ConfInv s pool d (bfcluster_run d n (bfcluster_start s pool)) := by
  induction n with
  | zero =>
    show LoopInv s pool d s pool (-1)
    constructor
    · exact hnd
    · intro i hi; exact hi
    · intro i; rfl
    · exact hun
    · intro i _; rfl
    · exact le_refl _
    · intro i hi hni; exact absurd hi hni
    · intro i hi hni; exact absurd hi hni
    · intro i hi hni; exact absurd hi hni
    · intro k hk0 hk; omega
  | succ n ih => rw [bfcluster_run_succ]; exact conf_step _ ih

/-- What the invariant says about the pool at a control point: its points are
unassigned, but for the head at an inner test, which is the seed and has the
current id; the points of the input that left the pool are assigned. -/
theorem conf_pool {s0 : State} {pool : List Nat} {d : Threshold} (cfg : Config)
    (hinv : ConfInv s0 pool d cfg) :
    (∀ i ∈ cfg.pointstovisit, (cfg.state.voxel i).cluster = -1 ∨
      (cfg.pointstovisit.head? = some i ∧ (∃ s f p c, cfg = .inner s f p c) ∧
        (cfg.state.voxel i).cluster = cfg.cluster)) ∧
    (∀ i ∈ pool, i ∉ cfg.pointstovisit →
      0 ≤ (cfg.state.voxel i).cluster ∧ (cfg.state.voxel i).cluster ≤ cfg.cluster) ∧
    -1 ≤ cfg.cluster := by
  cases cfg with
  | outer s p c =>
    have hl : LoopInv s0 pool d s p c := hinv
    exact ⟨fun i hi => Or.inl (hl.unassigned i hi), fun i hi hni => hl.range i hi hni,
      hl.counter⟩
  | done s c =>
    have hl : LoopInv s0 pool d s [] c := hinv
    exact ⟨fun i hi => absurd hi (List.not_mem_nil i), fun i hi hni => hl.range i hi hni,
      hl.counter⟩
  | inner s f p c =>
    obtain ⟨h, t, q, sb, hp, hl, hg⟩ := hinv
    subst hp
    have hc := hl.counter
    refine ⟨fun i hi => ?_, fun i hi hni => ?_, show -1 ≤ c by omega⟩
    · rcases List.mem_cons.mp hi with rfl | hiq
      · exact Or.inr ⟨rfl, ⟨s, f, _, c, rfl⟩, hg.seed⟩
      · exact Or.inl (hg.unassigned i hiq)
    · have hne : i ≠ h := fun e => hni (e ▸ List.mem_cons_self h q)
      have hnq : i ∉ q := fun e => hni (List.mem_cons_of_mem h e)
      show 0 ≤ (s.voxel i).cluster ∧ (s.voxel i).cluster ≤ c
      by_cases hit : i ∈ t
      · rw [hg.members i hit hnq]; omega
      · rw [hg.frame i hne hit]
        have := hl.range i hi (fun e => (List.mem_cons.mp e).elim hne hit)
        omega

/-- A move of `bfcluster` changes the cluster of no assigned voxel. -/
theorem conf_stable {s0 : State} {pool : List Nat} {d : Threshold} (cfg : Config)
    (hinv : ConfInv s0 pool d cfg) (i : Nat) (hi : (cfg.state.voxel i).cluster ≠ -1) :
    ((bfcluster_step d cfg).state.voxel i).cluster = (cfg.state.voxel i).cluster := by
  cases cfg with
  | outer s p c =>
    cases p with
    | nil => rfl
    | cons h t =>
      have hl : LoopInv s0 pool d s (h :: t) c := hinv
      have hc : c + 1 ≠ -1 := by have := hl.counter; omega
      have hni : i ∉ h :: t := fun e => hi (hl.unassigned i e)
      have hne : i ≠ h := fun e => hni (e ▸ List.mem_cons_self h t)
      have hs1 : ((s.set_cluster h (c + 1)).voxel h).cluster = c + 1 := by
        rw [set_cluster_cluster, if_pos rfl]
      obtain ⟨_, _, _, h4⟩ := get_neighbours_assigned h (s.set_cluster h (c + 1)) h t d
        (by rw [hs1]; exact hc) (by rw [hs1]; exact hc)
      show ((get_neighbours h (s.set_cluster h (c + 1)) h t d).state.voxel i).cluster = _
      rw [h4, if_neg (fun hx => hni (List.mem_cons_of_mem h hx.1)), set_cluster_cluster,
        if_neg hne]
      rfl
  | done s c => rfl
  | inner s f p c =>
    obtain ⟨h, t, q, sb, hp, hl, hg⟩ := hinv
    subst hp
    have hc : c ≠ -1 := by have := hl.counter; omega
    cases f with
    | nil => rfl
    | cons n f =>
      obtain ⟨hsh, hsn⟩ := grow_assigned hg
      obtain ⟨_, _, _, h4⟩ := get_neighbours_assigned n s h q d
        (by rw [hsh]; exact hc) (by rw [hsn]; exact hc)
      show ((get_neighbours n s h q d).state.voxel i).cluster = _
      rw [h4, if_neg (fun hx => hi (hg.unassigned i hx.1))]
      rfl

/-- What the invariant says at a test of the inner loop: the pool is not
empty, its head is the seed and holds the current id, which is not negative,
the other points of the pool are unassigned and the points of the frontier
hold the current id. -/
theorem conf_inner {s0 : State} {pool : List Nat} {d : Threshold} {s : State}
    {f p : List Nat} {c : Int} (hinv : ConfInv s0 pool d (.inner s f p c)) :
    ∃ h q, p = h :: q ∧ (s.voxel h).cluster = c ∧ 0 ≤ c ∧ h ∉ q ∧
      (∀ i ∈ q, (s.voxel i).cluster = -1) ∧ (∀ i ∈ f, (s.voxel i).cluster = c) := by
  obtain ⟨h, t, q, sb, hp, hl, hg⟩ := hinv
  have hc := hl.counter
  refine ⟨h, q, hp, hg.seed, by omega, (List.nodup_cons.mp hg.nodup).1, hg.unassigned,
    fun i hi => ?_⟩
  have hn := hg.sub_front i hi
  rcases hn.1 with h1 | h1
  · rw [h1]; exact hg.seed
  · exact hg.members i h1 hn.2

theorem delete_head_sublist (p : List Nat) : (delete_head p).Sublist p := by
  cases p with
  | nil => exact List.Sublist.refl _
  | cons h t => exact (List.Sublist.refl t).cons h

/-- No move of `bfcluster` adds a node to the pool, whatever the control
point. -/
theorem step_sublist (d : Threshold) (cfg : Config) :
    (bfcluster_step d cfg).pointstovisit.Sublist cfg.pointstovisit := by
  cases cfg with
  | outer s p c =>
    cases p with
    | nil => exact List.Sublist.refl _
    | cons h t => exact get_neighbours_sublist h _ h t d
  | done s c => exact List.Sublist.refl _
  | inner s f p c =>
    cases f with
    | nil => exact delete_head_sublist p
    | cons n f =>
      cases p with
      | nil => exact List.Sublist.refl _
      | cons h t => exact get_neighbours_sublist n s h t d

theorem run_sublist (d : Threshold) (cfg : Config) (k : Nat) :
    (bfcluster_run d k cfg).pointstovisit.Sublist cfg.pointstovisit := by
  induction k with
  | zero => exact List.Sublist.refl _
  | succ k ih => rw [bfcluster_run_succ]; exact (step_sublist d _).trans ih

/-! ## The pool invariant -/

/-- C12 as stated fails: on the single point `(0,0,0)`, at the first test of
the inner loop the point is still in the pool and already has cluster `0`. -/
theorem pool_invariant_counterexample :
    0 ∈ (bfcluster_run threshold_sqrt2 1
      (bfcluster_start (heap_of [(0, 0, 0)]) [0])).pointstovisit ∧
    ((bfcluster_run threshold_sqrt2 1
      (bfcluster_start (heap_of [(0, 0, 0)]) [0])).state.voxel 0).cluster = 0 := by
  decide

/-- C12 amended: in a run of `bfcluster` on a pool of pairwise different,
unassigned voxels, at every control point every point of the pool has cluster
`-1`, except the head of the pool at a test of the inner loop, which is the
seed and holds the current id; every input point that is no longer in the pool
is assigned; and a point that is not in the pool at a control point is in it
at no later one. -/
theorem bfcluster_pool_invariant (s : State) (pool : List Nat) (d : Threshold)
    (hnd : pool.Nodup) (hun : ∀ i ∈ pool, (s.voxel i).cluster = -1) (n : Nat) :
    (∀ i ∈ (bfcluster_run d n (bfcluster_start s pool)).pointstovisit,
      ((bfcluster_run d n (bfcluster_start s pool)).state.voxel i).cluster = -1 ∨
      ((bfcluster_run d n (bfcluster_start s pool)).pointstovisit.head? = some i ∧
        (∃ s' f p c, bfcluster_run d n (bfcluster_start s pool) = .inner s' f p c) ∧
        ((bfcluster_run d n (bfcluster_start s pool)).state.voxel i).cluster
          = (bfcluster_run d n (bfcluster_start s pool)).cluster ∧
        0 ≤ (bfcluster_run d n (bfcluster_start s pool)).cluster)) ∧
    (∀ i ∈ pool, i ∉ (bfcluster_run d n (bfcluster_start s pool)).pointstovisit →
      0 ≤ ((bfcluster_run d n (bfcluster_start s pool)).state.voxel i).cluster) ∧
    (∀ k i, i ∉ (bfcluster_run d n (bfcluster_start s pool)).pointstovisit →
      i ∉ (bfcluster_run d (n + k) (bfcluster_start s pool)).pointstovisit) := by
  have hinv := conf_reach s pool d hnd hun n
  obtain ⟨h1, h2, _⟩ := conf_pool _ hinv
  refine ⟨fun i hi => ?_, fun i hi hni => (h2 i hi hni).1, fun k i hni hmem => ?_⟩
  · rcases h1 i hi with hu | ⟨hh, ⟨s', f, p, c, hcfg⟩, hc⟩
    · exact Or.inl hu
    · refine Or.inr ⟨hh, ⟨s', f, p, c, hcfg⟩, hc, ?_⟩
      rw [hcfg] at hinv ⊢
      obtain ⟨_, _, _, _, h0, _⟩ := conf_inner hinv
      exact h0
  · rw [bfcluster_run_add] at hmem
    exact hni ((run_sublist d _ k).subset hmem)

/-- C12 amended, on the points `(0,0,0)`, `(1,0,0)`, `(5,0,0)` with the
threshold `1.5`, after two moves. -/
theorem bfcluster_pool_invariant_witness :
    [0, 1, 2].Nodup ∧
    (∀ i ∈ [0, 1, 2], ((heap_of [(0, 0, 0), (1, 0, 0), (5, 0, 0)]).voxel i).cluster = -1) ∧
    (∀ i ∈ [0, 1, 2], i ∉ (bfcluster_run threshold_1_5 2
        (bfcluster_start (heap_of [(0, 0, 0), (1, 0, 0), (5, 0, 0)]) [0, 1, 2])).pointstovisit →
      0 ≤ ((bfcluster_run threshold_1_5 2
        (bfcluster_start (heap_of [(0, 0, 0), (1, 0, 0), (5, 0, 0)]) [0, 1, 2])).state.voxel
          i).cluster) :=
  ⟨by decide, by decide,
    (bfcluster_pool_invariant (heap_of [(0, 0, 0), (1, 0, 0), (5, 0, 0)]) [0, 1, 2]
      threshold_1_5 (by decide) (by decide) 2).2.1⟩

/-! ## Single assignment -/

/-- An assigned voxel keeps its cluster at every later control point. -/
theorem run_stable (s : State) (pool : List Nat) (d : Threshold)
    (hnd : pool.Nodup) (hun : ∀ i ∈ pool, (s.voxel i).cluster = -1) (n k i : Nat)
    (hi : ((bfcluster_run d n (bfcluster_start s pool)).state.voxel i).cluster ≠ -1) :
    ((bfcluster_run d (n + k) (bfcluster_start s pool)).state.voxel i).cluster
      = ((bfcluster_run d n (bfcluster_start s pool)).state.voxel i).cluster := by
  induction k with
  | zero => rfl
  | succ k ih =>
    rw [← Nat.add_assoc, bfcluster_run_succ,
      conf_stable _ (conf_reach s pool d hnd hun (n + k)) i (by rw [ih]; exact hi), ih]

/-- C15, single assignment: in a run of `bfcluster` on a pool of pairwise
different, unassigned voxels, a voxel that holds a cluster id keeps it at every
later control point; the run ends, and for every point of the pool there is
one move before which its cluster is `-1` at all control points and after
which it is its final, non-negative id at all control points. -/
theorem bfcluster_single_assignment (s : State) (pool : List Nat) (d : Threshold)
    (hnd : pool.Nodup) (hun : ∀ i ∈ pool, (s.voxel i).cluster = -1) :
    (∀ n k i, ((bfcluster_run d n (bfcluster_start s pool)).state.voxel i).cluster ≠ -1 →
      ((bfcluster_run d (n + k) (bfcluster_start s pool)).state.voxel i).cluster
        = ((bfcluster_run d n (bfcluster_start s pool)).state.voxel i).cluster) ∧
    ∃ N s' m, bfcluster s pool d = some (s', m) ∧
      bfcluster_run d N (bfcluster_start s pool) = .done s' m ∧
      ∀ i ∈ pool, 0 ≤ (s'.voxel i).cluster ∧
        ∃ k, k < N ∧
          (∀ n, n ≤ k →
            ((bfcluster_run d n (bfcluster_start s pool)).state.voxel i).cluster = -1) ∧
          (∀ n, k < n →
            ((bfcluster_run d n (bfcluster_start s pool)).state.voxel i).cluster
              = (s'.voxel i).cluster) := by
  refine ⟨fun n k i hi => run_stable s pool d hnd hun n k i hi, ?_⟩
  obtain ⟨s', m, hrun, hinv⟩ := bfcluster_spec s pool d hnd hun
  obtain ⟨N, hN⟩ := bfcluster_moves d s pool s' m hrun
  refine ⟨N, s', m, hrun, hN, fun i hi => ?_⟩
  have hfin := (hinv.range i hi (List.not_mem_nil i)).1
  refine ⟨hfin, ?_⟩
  have hex : ∃ n, ((bfcluster_run d n (bfcluster_start s pool)).state.voxel i).cluster ≠ -1 :=
    ⟨N, by rw [hN]; show (s'.voxel i).cluster ≠ -1; omega⟩
  have hj := Nat.find_spec hex
  have hjN : Nat.find hex ≤ N :=
    Nat.find_min' hex (by rw [hN]; show (s'.voxel i).cluster ≠ -1; omega)
  have hj0 : Nat.find hex ≠ 0 := by
    intro h0
    rw [h0] at hj
    exact hj (hun i hi)
  have hlate : ∀ n, Nat.find hex ≤ n →
      ((bfcluster_run d n (bfcluster_start s pool)).state.voxel i).cluster
        = (s'.voxel i).cluster := by
    intro n hn
    have h1 := run_stable s pool d hnd hun (Nat.find hex) (n - Nat.find hex) i hj
    have h2 := run_stable s pool d hnd hun (Nat.find hex) (N - Nat.find hex) i hj
    rw [Nat.add_sub_cancel' hn] at h1
    rw [Nat.add_sub_cancel' hjN, hN] at h2
    rw [h1, ← h2]
    rfl
  refine ⟨Nat.find hex - 1, by omega, fun n hn => ?_, fun n hn => hlate n (by omega)⟩
  have hlt : n < Nat.find hex := by omega
  exact not_not.mp (Nat.find_min hex hlt)

/-- C15 on the points `(0,0,0)` and `(1,1,0)` with the threshold `sqrt(2)`. -/
theorem bfcluster_single_assignment_witness :
    [0, 1].Nodup ∧ (∀ i ∈ [0, 1], ((heap_of [(0, 0, 0), (1, 1, 0)]).voxel i).cluster = -1) ∧
    (∀ n k i, ((bfcluster_run threshold_sqrt2 n
        (bfcluster_start (heap_of [(0, 0, 0), (1, 1, 0)]) [0, 1])).state.voxel i).cluster ≠ -1 →
      ((bfcluster_run threshold_sqrt2 (n + k)
        (bfcluster_start (heap_of [(0, 0, 0), (1, 1, 0)]) [0, 1])).state.voxel i).cluster
        = ((bfcluster_run threshold_sqrt2 n
          (bfcluster_start (heap_of [(0, 0, 0), (1, 1, 0)]) [0, 1])).state.voxel i).cluster) :=
  ⟨by decide, by decide,
    (bfcluster_single_assignment (heap_of [(0, 0, 0), (1, 1, 0)]) [0, 1] threshold_sqrt2
      (by decide) (by decide)).1⟩

/-! ## The head of the pool -/

/-- C19, the head of the pool is safe: in a run of `bfcluster` on a pool of
pairwise different, unassigned voxels, the call of `get_neighbours` made from
the outer loop gets a pool whose head is the seed, which holds its new id, and
the calls made from the inner loop get a pool that is not empty and whose head
holds the current id, which is not negative; none of these calls returns the
head or takes it out of the pool, so the pool is not empty at any test of the
inner loop. -/
theorem bfcluster_head_safe (s : State) (pool : List Nat) (d : Threshold)
    (hnd : pool.Nodup) (hun : ∀ i ∈ pool, (s.voxel i).cluster = -1) (n : Nat) :
    (∀ s1 h t c, bfcluster_run d n (bfcluster_start s pool) = .outer s1 (h :: t) c →
      ((s1.set_cluster h (c + 1)).voxel h).cluster = c + 1 ∧ 0 ≤ c + 1 ∧
      h ∉ (get_neighbours h (s1.set_cluster h (c + 1)) h t d).neighbour ∧
      ∃ q, (get_neighbours h (s1.set_cluster h (c + 1)) h t d).pool = h :: q) ∧
    (∀ s1 f p c, bfcluster_run d n (bfcluster_start s pool) = .inner s1 f p c →
      ∃ h q, p = h :: q ∧ (s1.voxel h).cluster = c ∧ 0 ≤ c ∧
        ∀ x f', f = x :: f' →
          h ∉ (get_neighbours x s1 h q d).neighbour ∧
          ∃ q', (get_neighbours x s1 h q d).pool = h :: q') := by
  have hinv := conf_reach s pool d hnd hun n
  constructor
  · intro s1 h t c hcfg
    rw [hcfg] at hinv
    have hl : LoopInv s pool d s1 (h :: t) c := hinv
    have hc := hl.counter
    have hht : h ∉ t := (List.nodup_cons.mp hl.nodup).1
    have hs1 : ((s1.set_cluster h (c + 1)).voxel h).cluster = c + 1 := by
      rw [set_cluster_cluster, if_pos rfl]
    obtain ⟨h1, h2, _, _⟩ := get_neighbours_assigned h (s1.set_cluster h (c + 1)) h t d
      (by rw [hs1]; omega) (by rw [hs1]; omega)
    refine ⟨hs1, by omega, ?_, _, h1⟩
    rw [h2, List.mem_reverse]
    exact fun hx => hht (List.mem_filter.mp hx).1
  · intro s1 f p c hcfg
    rw [hcfg] at hinv
    obtain ⟨h, q, hp, hsh, h0, hhq, _, hf⟩ := conf_inner hinv
    refine ⟨h, q, hp, hsh, h0, fun x f' hx => ?_⟩
    have hsx : (s1.voxel x).cluster = c := hf x (by rw [hx]; exact List.mem_cons_self x f')
    obtain ⟨h1, h2, _, _⟩ := get_neighbours_assigned x s1 h q d
      (by rw [hsh]; omega) (by rw [hsx]; omega)
    refine ⟨?_, _, h1⟩
    rw [h2, List.mem_reverse]
    exact fun hx => hhq (List.mem_filter.mp hx).1

/-- C19 on the points `(0,0,0)` and `(1,1,0)` with the threshold `sqrt(2)`, at
the first test of the inner loop. -/
theorem bfcluster_head_safe_witness :
    [0, 1].Nodup ∧ (∀ i ∈ [0, 1], ((heap_of [(0, 0, 0), (1, 1, 0)]).voxel i).cluster = -1) ∧
    (∀ s1 f p c, bfcluster_run threshold_sqrt2 1
        (bfcluster_start (heap_of [(0, 0, 0), (1, 1, 0)]) [0, 1]) = .inner s1 f p c →
      ∃ h q, p = h :: q ∧ (s1.voxel h).cluster = c ∧ 0 ≤ c ∧
        ∀ x f', f = x :: f' →
          h ∉ (get_neighbours x s1 h q threshold_sqrt2).neighbour ∧
          ∃ q', (get_neighbours x s1 h q threshold_sqrt2).pool = h :: q') :=
  ⟨by decide, by decide,
    (bfcluster_head_safe (heap_of [(0, 0, 0), (1, 1, 0)]) [0, 1] threshold_sqrt2
      (by decide) (by decide) 1).2⟩

/-! ## Cluster ids in the order of discovery -/

/-- The head of a sublist of a list without repetition splits the list, and
no node of the sublist comes before it. -/
theorem sublist_split {h : Nat} {t : List Nat} :
    ∀ {pool : List Nat}, pool.Nodup → (h :: t).Sublist pool →
      ∃ l1 l2, pool = l1 ++ h :: l2 ∧ ∀ y ∈ l1, y ∉ h :: t := by
  intro pool
  induction pool with
  | nil => intro _ hs; exact absurd hs (by simp)
  | cons a l ih =>
    intro hnd hs
    rcases List.sublist_cons_iff.mp hs with hs' | ⟨r, hr, _⟩
    · obtain ⟨l1, l2, hl, hy⟩ := ih (List.nodup_cons.mp hnd).2 hs'
      refine ⟨a :: l1, l2, by rw [hl]; rfl, fun y hy' => ?_⟩
      rcases List.mem_cons.mp hy' with rfl | hy''
      · exact fun e => (List.nodup_cons.mp hnd).1 (hs'.subset e)
      · exact hy y hy''
    · obtain ⟨rfl, rfl⟩ := List.cons.inj hr
      exact ⟨[], l, rfl, fun y hy' => absurd hy' (List.not_mem_nil y)⟩

/-- Every move of `bfcluster` keeps the seeds in the order of the pool. -/
theorem seed_step {s0 : State} {pool : List Nat} {d : Threshold} (hnd : pool.Nodup)
    (cfg : Config) (hinv : ConfInv s0 pool d cfg) (hso : SeedOrder pool cfg) :
    SeedOrder pool (bfcluster_step d cfg) := by
  refine ⟨(step_sublist d cfg).trans hso.1, ?_⟩
  -- the seeds found so far stay where they are
  have hold : ∀ k : Int, 0 ≤ k → k ≤ cfg.cluster → ∃ l1 x l2, pool = l1 ++ x :: l2 ∧
      ((bfcluster_step d cfg).state.voxel x).cluster = k ∧
      ∀ y ∈ l1, 0 ≤ ((bfcluster_step d cfg).state.voxel y).cluster ∧
        ((bfcluster_step d cfg).state.voxel y).cluster < k := by
    intro k hk0 hkc
    obtain ⟨l1, x, l2, hl, hx, hy⟩ := hso.2 k hk0 hkc
    refine ⟨l1, x, l2, hl, ?_, fun y hy' => ?_⟩
    · rw [conf_stable cfg hinv x (by rw [hx]; omega), hx]
    · have := hy y hy'
      rw [conf_stable cfg hinv y (by omega)]
      exact this
  cases cfg with
  | done s c => exact hold
  | inner s f p c =>
    have hcl : (bfcluster_step d (.inner s f p c)).cluster = c := by
      cases f with
      | nil => rfl
      | cons n f =>
        cases p with
        | nil => rfl
        | cons h t => rfl
    rw [hcl]
    exact hold
  | outer s p c =>
    cases p with
    | nil => exact hold
    | cons h t =>
      intro k hk0 hkc
      have hkc' : k ≤ c + 1 := hkc
      by_cases hk : k ≤ c
      · exact hold k hk0 hk
      · have hkeq : k = c + 1 := by omega
        have hl : LoopInv s0 pool d s (h :: t) c := hinv
        obtain ⟨l1, l2, hsplit, hy⟩ := sublist_split hnd hso.1
        have hs1 : ((s.set_cluster h (c + 1)).voxel h).cluster = c + 1 := by
          rw [set_cluster_cluster, if_pos rfl]
        have hc1 : c + 1 ≠ -1 := by have := hl.counter; omega
        obtain ⟨_, _, _, h4⟩ := get_neighbours_assigned h (s.set_cluster h (c + 1)) h t d
          (by rw [hs1]; exact hc1) (by rw [hs1]; exact hc1)
        refine ⟨l1, h, l2, hsplit, ?_, fun y hy' => ?_⟩
        · show ((get_neighbours h (s.set_cluster h (c + 1)) h t d).state.voxel h).cluster = k
          rw [h4, hs1, ite_self, hkeq]
        · have hyp : y ∈ pool := by rw [hsplit]; exact List.mem_append_left _ hy'
          have hr := hl.range y hyp (hy y hy')
          rw [conf_stable (.outer s (h :: t) c) hinv y (by show (s.voxel y).cluster ≠ -1; omega)]
          show 0 ≤ (s.voxel y).cluster ∧ (s.voxel y).cluster < k
          omega

theorem seed_reach (s : State) (pool : List Nat) (d : Threshold)
    (hnd : pool.Nodup) (hun : ∀ i ∈ pool, (s.voxel i).cluster = -1) (n : Nat) :
    SeedOrder pool (bfcluster_run d n (bfcluster_start s pool)) := by
  induction n with
  | zero =>
    refine ⟨List.Sublist.refl pool, fun k hk0 hk => ?_⟩
    have : k ≤ -1 := hk
    omega
  | succ n ih =>
    rw [bfcluster_run_succ]
    exact seed_step hnd _ (conf_reach s pool d hnd hun n) ih

/-- C13, ids in the order of discovery: in a run of `bfcluster` on a pool of
pairwise different, unassigned voxels, at every test of the outer loop with a
pool that is not empty the head of the pool is the seed and gets the id
`cluster + 1`, the counter starting at `-1`; at the end the first point of the
input pool has id `0`, and for ids `i < j` the pool splits at a point of id
`i` before which no point has id `i` or `j`, so that the first position of id
`i` in the pool is before the first position of id `j`. -/
theorem bfcluster_discovery_order (s : State) (pool : List Nat) (d : Threshold)
    (hnd : pool.Nodup) (hun : ∀ i ∈ pool, (s.voxel i).cluster = -1) :
    (bfcluster_start s pool).cluster = -1 ∧
    (∀ n s1 h t c, bfcluster_run d n (bfcluster_start s pool) = .outer s1 (h :: t) c →
      -1 ≤ c ∧ (bfcluster_run d (n + 1) (bfcluster_start s pool)).cluster = c + 1 ∧
      ((bfcluster_run d (n + 1) (bfcluster_start s pool)).state.voxel h).cluster = c + 1) ∧
    ∃ s' m, bfcluster s pool d = some (s', m) ∧
      (∀ a rest, pool = a :: rest → (s'.voxel a).cluster = 0) ∧
      (∀ i j : Int, 0 ≤ i → i < j → j ≤ m →
        ∃ l1 x l2, pool = l1 ++ x :: l2 ∧ (s'.voxel x).cluster = i ∧
          ∀ y ∈ l1, (s'.voxel y).cluster ≠ i ∧ (s'.voxel y).cluster ≠ j) ∧
      (∀ i j : Int, 0 ≤ i → i < j → j ≤ m →
        List.indexOf i (pool.map (fun v => (s'.voxel v).cluster))
          < List.indexOf j (pool.map (fun v => (s'.voxel v).cluster))) := by
  refine ⟨rfl, fun n s1 h t c hcfg => ?_, ?_⟩
  · have hinv := conf_reach s pool d hnd hun n
    rw [hcfg] at hinv
    have hl : LoopInv s pool d s1 (h :: t) c := hinv
    have hc := hl.counter
    have hs1 : ((s1.set_cluster h (c + 1)).voxel h).cluster = c + 1 := by
      rw [set_cluster_cluster, if_pos rfl]
    obtain ⟨_, _, _, h4⟩ := get_neighbours_assigned h (s1.set_cluster h (c + 1)) h t d
      (by rw [hs1]; omega) (by rw [hs1]; omega)
    rw [bfcluster_run_succ, hcfg]
    refine ⟨hc, rfl, ?_⟩
    show ((get_neighbours h (s1.set_cluster h (c + 1)) h t d).state.voxel h).cluster = c + 1
    rw [h4, hs1, ite_self]
  · obtain ⟨s', m, hrun, hinv⟩ := bfcluster_spec s pool d hnd hun
    obtain ⟨N, hN⟩ := bfcluster_moves d s pool s' m hrun
    have hso := (seed_reach s pool d hnd hun N).2
    rw [hN] at hso
    have hseed : ∀ k : Int, 0 ≤ k → k ≤ m → ∃ l1 x l2, pool = l1 ++ x :: l2 ∧
        (s'.voxel x).cluster = k ∧
        ∀ y ∈ l1, 0 ≤ (s'.voxel y).cluster ∧ (s'.voxel y).cluster < k := hso
    have hsplit : ∀ i j : Int, 0 ≤ i → i < j → j ≤ m →
        ∃ l1 x l2, pool = l1 ++ x :: l2 ∧ (s'.voxel x).cluster = i ∧
          ∀ y ∈ l1, (s'.voxel y).cluster ≠ i ∧ (s'.voxel y).cluster ≠ j := by
      intro i j hi hij hjm
      obtain ⟨l1, x, l2, hl, hx, hy⟩ := hseed i hi (by omega)
      refine ⟨l1, x, l2, hl, hx, fun y hy' => ?_⟩
      have := hy y hy'
      constructor <;> omega
    refine ⟨s', m, hrun, fun a rest hp => ?_, hsplit, fun i j hi hij hjm => ?_⟩
    · have ha : a ∈ pool := by rw [hp]; exact List.mem_cons_self a rest
      have hm := hinv.range a ha (List.not_mem_nil a)
      obtain ⟨l1, x, l2, hl, hx, hy⟩ := hseed 0 (le_refl 0) (by omega)
      cases l1 with
      | nil =>
        rw [hp, List.nil_append] at hl
        rw [(List.cons.inj hl).1]; exact hx
      | cons y l1 =>
        have := hy y (List.mem_cons_self y l1)
        omega
    · obtain ⟨l1, x, l2, hl, hx, hy⟩ := hsplit i j hi hij hjm
      have hids : pool.map (fun v => (s'.voxel v).cluster)
          = l1.map (fun v => (s'.voxel v).cluster)
            ++ i :: l2.map (fun v => (s'.voxel v).cluster) := by
        rw [hl, List.map_append, List.map_cons, hx]
      have hni : ∀ k : Int, (∀ y ∈ l1, (s'.voxel y).cluster ≠ k) →
          k ∉ l1.map (fun v => (s'.voxel v).cluster) := by
        intro k hk hmem
        obtain ⟨y, hy', hyk⟩ := List.mem_map.mp hmem
        exact hk y hy' hyk
      rw [hids, List.indexOf_append_of_not_mem (hni i (fun y hy' => (hy y hy').1)),
        List.indexOf_append_of_not_mem (hni j (fun y hy' => (hy y hy').2)),
        List.indexOf_cons_self, List.indexOf_cons_ne _ (by omega : i ≠ j)]
      omega

/-- C13 on the points `(0,0,0)`, `(5,0,0)`, `(1,0,0)` with the threshold
`1.5`. -/
theorem bfcluster_discovery_order_witness :
    [0, 1, 2].Nodup ∧
    (∀ i ∈ [0, 1, 2], ((heap_of [(0, 0, 0), (5, 0, 0), (1, 0, 0)]).voxel i).cluster = -1) ∧
    ∃ s' m, bfcluster (heap_of [(0, 0, 0), (5, 0, 0), (1, 0, 0)]) [0, 1, 2] threshold_1_5
        = some (s', m) ∧
      (∀ a rest, [0, 1, 2] = a :: rest → (s'.voxel a).cluster = 0) ∧
      (∀ i j : Int, 0 ≤ i → i < j → j ≤ m →
        ∃ l1 x l2, [0, 1, 2] = l1 ++ x :: l2 ∧ (s'.voxel x).cluster = i ∧
          ∀ y ∈ l1, (s'.voxel y).cluster ≠ i ∧ (s'.voxel y).cluster ≠ j) ∧
      (∀ i j : Int, 0 ≤ i → i < j → j ≤ m →
        List.indexOf i ([0, 1, 2].map (fun v => (s'.voxel v).cluster))
          < List.indexOf j ([0, 1, 2].map (fun v => (s'.voxel v).cluster))) :=
  ⟨by decide, by decide,
    (bfcluster_discovery_order (heap_of [(0, 0, 0), (5, 0, 0), (1, 0, 0)]) [0, 1, 2]
      threshold_1_5 (by decide) (by decide)).2.2⟩

/-! ## Termination -/

/-- The inner loop of `bfcluster` returns on every input when it has more
tests than the frontier and the pool have nodes, and the pool does not grow. -/
theorem bfcluster_grow_total (d : Threshold) :
    ∀ (fuel : Nat) (s : State) (f p : List Nat), f.length + p.length < fuel →
      ∃ s' p', bfcluster_grow d fuel s f p = some (s', p') ∧ p'.length ≤ p.length := by
  intro fuel
  induction fuel with
  | zero => intro s f p hlt; omega
  | succ fuel ih =>
    intro s f p hlt
    cases f with
    | nil => exact ⟨s, p, by simp [bfcluster_grow], le_refl _⟩
    | cons n f =>
      cases p with
      | nil => exact ⟨s, [], by simp [bfcluster_grow], le_refl _⟩
      | cons h t =>
        have hlen := get_neighbours_length n s h t d
        simp only [List.length_cons] at hlt
        obtain ⟨s', p', hrun, hle⟩ := ih (get_neighbours n s h t d).state
          (f ++ (get_neighbours n s h t d).neighbour) (get_neighbours n s h t d).pool
          (by rw [List.length_append]; omega)
        refine ⟨s', p', ?_, ?_⟩
        · rw [bfcluster_grow]; exact hrun
        · simp only [List.length_cons]; omega

/-- The outer loop of `bfcluster` returns on every input when it has more
tests than the pool has nodes. -/
theorem bfcluster_loop_total (d : Threshold) :
    ∀ (fuel : Nat) (s : State) (p : List Nat) (c : Int), p.length < fuel →
      ∃ s' m, bfcluster_loop d fuel s p c = some (s', m) := by
  intro fuel
  induction fuel with
  | zero => intro s p c hlt; omega
  | succ fuel ih =>
    intro s p c hlt
    cases p with
    | nil => exact ⟨s, c, by simp [bfcluster_loop]⟩
    | cons h t =>
      have hlen := get_neighbours_length h (s.set_cluster h (c + 1)) h t d
      simp only [List.length_cons] at hlt
      obtain ⟨s2, p2, hg, hle⟩ := bfcluster_grow_total d (fuel + 1)
        (get_neighbours h (s.set_cluster h (c + 1)) h t d).state
        (get_neighbours h (s.set_cluster h (c + 1)) h t d).neighbour
        (get_neighbours h (s.set_cluster h (c + 1)) h t d).pool (by omega)
      have hdel : (delete_head p2).length < fuel := by
        cases p2 with
        | nil => simp only [delete_head, List.length_nil]; omega
        | cons a p2 => simp only [delete_head, List.length_cons] at hle ⊢; omega
      obtain ⟨s', m, hrun⟩ := ih s2 (delete_head p2) (c + 1) hdel
      exact ⟨s', m, by rw [bfcluster_loop, hg]; exact hrun⟩

/-- An inner loop that starts with an assigned head of the pool and an
assigned frontier reaches the next test of the outer loop, and by then the
pool has lost its head and gained nothing. -/
theorem grow_reaches_outer (d : Threshold) (c : Int) (h : Nat) :
    ∀ (b : Nat) (s : State) (f q : List Nat), f.length + q.length ≤ b →
      (s.voxel h).cluster ≠ -1 → (∀ x ∈ f, (s.voxel x).cluster ≠ -1) →
      ∃ k s' q', bfcluster_run d k (.inner s f (h :: q) c) = .outer s' q' c ∧
        q'.Sublist q := by
  intro b
  induction b with
  | zero =>
    intro s f q hb _ _
    have hf : f = [] := List.eq_nil_of_length_eq_zero (by omega)
    subst hf
    exact ⟨1, s, q, rfl, List.Sublist.refl q⟩
  | succ b ih =>
    intro s f q hb hh hf
    cases f with
    | nil => exact ⟨1, s, q, rfl, List.Sublist.refl q⟩
    | cons x f =>
      have hx : (s.voxel x).cluster ≠ -1 := hf x (List.mem_cons_self x f)
      obtain ⟨h1, h2, _, h4⟩ := get_neighbours_assigned x s h q d hh hx
      have hkeep : ∀ i, (s.voxel i).cluster ≠ -1 →
          ((get_neighbours x s h q d).state.voxel i).cluster ≠ -1 := by
        intro i hi; rw [h4]; split <;> assumption
      have hlen := get_neighbours_length x s h q d
      rw [h1] at hlen
      simp only [List.length_cons] at hlen hb
      obtain ⟨k, s', q', hrun, hsub⟩ := ih (get_neighbours x s h q d).state
        (f ++ (get_neighbours x s h q d).neighbour) (q.filter (fun e => !near s d x e))
        (by rw [List.length_append]; omega) (hkeep h hh)
        (by
          intro y hy
          rcases List.mem_append.mp hy with hy | hy
          · exact hkeep y (hf y (List.mem_cons_of_mem x hy))
          · rw [h2, List.mem_reverse, List.mem_filter] at hy
            rw [h4, if_pos ⟨hy.1, hy.2⟩]; exact hx)
      refine ⟨k + 1, s', q', ?_, hsub.trans (List.filter_sublist q)⟩
      rw [bfcluster_run_step]
      show bfcluster_run d k (.inner (get_neighbours x s h q d).state
        (f ++ (get_neighbours x s h q d).neighbour) (get_neighbours x s h q d).pool c) = _
      rw [h1]; exact hrun

/-- An iteration of the outer loop ends: from a test of the outer loop with a
pool `h :: t` the run reaches the next such test, where the counter is one
more and the pool is a sublist of `t`. -/
theorem outer_iteration (d : Threshold) (s : State) (h : Nat) (t : List Nat) (c : Int)
    (hc : -1 ≤ c) :
    ∃ k s' q, bfcluster_run d k (.outer s (h :: t) c) = .outer s' q (c + 1) ∧
      q.Sublist t := by
  have hs1 : ((s.set_cluster h (c + 1)).voxel h).cluster = c + 1 := by
    rw [set_cluster_cluster, if_pos rfl]
  have hne : ((s.set_cluster h (c + 1)).voxel h).cluster ≠ -1 := by rw [hs1]; omega
  obtain ⟨h1, h2, _, h4⟩ := get_neighbours_assigned h (s.set_cluster h (c + 1)) h t d hne hne
  obtain ⟨k, s', q, hrun, hsub⟩ := grow_reaches_outer d (c + 1) h
    ((get_neighbours h (s.set_cluster h (c + 1)) h t d).neighbour.length
      + (t.filter (fun e => !near (s.set_cluster h (c + 1)) d h e)).length)
    (get_neighbours h (s.set_cluster h (c + 1)) h t d).state
    (get_neighbours h (s.set_cluster h (c + 1)) h t d).neighbour
    (t.filter (fun e => !near (s.set_cluster h (c + 1)) d h e)) (le_refl _)
    (by rw [h4]; split <;> exact hne)
    (by
      intro y hy
      rw [h2, List.mem_reverse, List.mem_filter] at hy
      rw [h4, if_pos ⟨hy.1, hy.2⟩]; exact hne)
  refine ⟨k + 1, s', q, ?_, hsub.trans (List.filter_sublist t)⟩
  rw [bfcluster_run_step]
  show bfcluster_run d k (.inner (get_neighbours h (s.set_cluster h (c + 1)) h t d).state
    (get_neighbours h (s.set_cluster h (c + 1)) h t d).neighbour
    (get_neighbours h (s.set_cluster h (c + 1)) h t d).pool (c + 1)) = _
  rw [h1]; exact hrun

/-- C16, termination: `bfcluster` returns on every pool and for every
threshold; no move adds a node to the pool; an iteration of the inner loop
takes the first node off the frontier, moves nodes of the pool to the end of
the frontier and so makes `2 * |pool| + |frontier|` smaller; and an iteration
of the outer loop ends with the head of the pool, the seed, removed and no
node added. -/
theorem bfcluster_terminates (d : Threshold) :
    (∀ (s : State) (pool : List Nat), ∃ s' m, bfcluster s pool d = some (s', m)) ∧
    (∀ cfg : Config, (bfcluster_step d cfg).pointstovisit.Sublist cfg.pointstovisit) ∧
    (∀ (s : State) (n : Nat) (f : List Nat) (h : Nat) (t : List Nat) (c : Int),
      bfcluster_step d (.inner s (n :: f) (h :: t) c)
        = .inner (get_neighbours n s h t d).state (f ++ (get_neighbours n s h t d).neighbour)
            (get_neighbours n s h t d).pool c ∧
      ((get_neighbours n s h t d).neighbour ++ (get_neighbours n s h t d).pool).Perm (h :: t) ∧
      2 * (get_neighbours n s h t d).pool.length
          + (f ++ (get_neighbours n s h t d).neighbour).length
        < 2 * (h :: t).length + (n :: f).length) ∧
    (∀ (s : State) (h : Nat) (t : List Nat) (c : Int), -1 ≤ c →
      ∃ k s' q, bfcluster_run d k (.outer s (h :: t) c) = .outer s' q (c + 1) ∧
        q.Sublist t) := by
  refine ⟨fun s pool => bfcluster_loop_total d _ s pool (-1) (Nat.lt_succ_self _),
    step_sublist d, fun s n f h t c => ⟨rfl, get_neighbours_perm n s h t d, ?_⟩,
    fun s h t c hc => outer_iteration d s h t c hc⟩
  have hlen := get_neighbours_length n s h t d
  simp only [List.length_append, List.length_cons]
  omega

/-- C16 on the points `(0,0,0)`, `(1,0,0)`, `(5,0,0)` with the threshold `1.5`:
the first iteration of the outer loop. -/
theorem bfcluster_terminates_witness :
    (-1 : Int) ≤ -1 ∧
    ∃ k s' q, bfcluster_run threshold_1_5 k
        (.outer (heap_of [(0, 0, 0), (1, 0, 0), (5, 0, 0)]) (0 :: [1, 2]) (-1))
        = .outer s' q (-1 + 1) ∧ q.Sublist [1, 2] :=
  ⟨le_refl _, (bfcluster_terminates threshold_1_5).2.2.2
    (heap_of [(0, 0, 0), (1, 0, 0), (5, 0, 0)]) 0 [1, 2] (-1) (le_refl _)⟩

/-! ## Frame -/

theorem voxel_eq {v w : VOXEL} (h1 : v.coordinate = w.coordinate) (h2 : v.cluster = w.cluster) :
    v = w := by
  cases v; cases w
  simp only [VOXEL.mk.injEq]
  exact ⟨h1, h2⟩

/-- A move of `bfcluster` changes no coordinate, no voxel outside the pool and
not the number of elements, whatever the control point. -/
theorem step_frame (d : Threshold) (cfg : Config) :
    (∀ i, ((bfcluster_step d cfg).state.voxel i).coordinate
      = (cfg.state.voxel i).coordinate) ∧
    (∀ i, i ∉ cfg.pointstovisit →
      ((bfcluster_step d cfg).state.voxel i).cluster = (cfg.state.voxel i).cluster) ∧
    (bfcluster_step d cfg).state.total_number_of_elements
      = cfg.state.total_number_of_elements := by
  cases cfg with
  | done s c => exact ⟨fun _ => rfl, fun _ _ => rfl, rfl⟩
  | outer s p c =>
    cases p with
    | nil => exact ⟨fun _ => rfl, fun _ _ => rfl, rfl⟩
    | cons h t =>
      obtain ⟨h1, h2, h3⟩ := get_neighbours_frame h (s.set_cluster h (c + 1)) h t d
      refine ⟨fun i => ?_, fun i hi => ?_, ?_⟩
      · show ((get_neighbours h (s.set_cluster h (c + 1)) h t d).state.voxel i).coordinate = _
        rw [h1, set_cluster_coordinate]; rfl
      · have hne : i ≠ h := fun e => hi (e ▸ List.mem_cons_self h t)
        show ((get_neighbours h (s.set_cluster h (c + 1)) h t d).state.voxel i).cluster = _
        rw [h2 i hi, set_cluster_cluster, if_neg hne]; rfl
      · show (get_neighbours h (s.set_cluster h (c + 1)) h t d).state.total_number_of_elements
          = _
        rw [h3]; rfl
  | inner s f p c =>
    cases f with
    | nil => exact ⟨fun _ => rfl, fun _ _ => rfl, rfl⟩
    | cons n f =>
      cases p with
      | nil => exact ⟨fun _ => rfl, fun _ _ => rfl, rfl⟩
      | cons h t =>
        obtain ⟨h1, h2, h3⟩ := get_neighbours_frame n s h t d
        exact ⟨h1, h2, h3⟩

theorem run_frame (d : Threshold) (cfg : Config) (k : Nat) :
    (∀ i, ((bfcluster_run d k cfg).state.voxel i).coordinate
      = (cfg.state.voxel i).coordinate) ∧
    (∀ i, i ∉ cfg.pointstovisit →
      ((bfcluster_run d k cfg).state.voxel i).cluster = (cfg.state.voxel i).cluster) ∧
    (bfcluster_run d k cfg).state.total_number_of_elements
      = cfg.state.total_number_of_elements := by
  induction k with
  | zero => exact ⟨fun _ => rfl, fun _ _ => rfl, rfl⟩
  | succ k ih =>
    obtain ⟨h1, h2, h3⟩ := step_frame d (bfcluster_run d k cfg)
    rw [bfcluster_run_succ]
    refine ⟨fun i => by rw [h1, ih.1], fun i hi => ?_, by rw [h3, ih.2.2]⟩
    rw [h2 i (fun e => hi ((run_sublist d cfg k).subset e)), ih.2.1 i hi]

/-- C17, frame: `get_neighbours` and `bfcluster`, on every input, leave the
coordinates of every voxel as they were, change no voxel outside the pool
they get, and leave the count of elements; so the original sequence of
points, read after the run, has the same points with the same coordinates. -/
theorem bfcluster_frame :
    (∀ (p : Nat) (s : State) (head : Nat) (rest : List Nat) (d : Threshold),
      (∀ i, ((get_neighbours p s head rest d).state.voxel i).coordinate
        = (s.voxel i).coordinate) ∧
      (∀ i, i ∉ head :: rest → (get_neighbours p s head rest d).state.voxel i = s.voxel i) ∧
      (get_neighbours p s head rest d).state.total_number_of_elements
        = s.total_number_of_elements) ∧
    (∀ (s : State) (pool : List Nat) (d : Threshold),
      ∃ s' m, bfcluster s pool d = some (s', m) ∧
        (∀ i, (s'.voxel i).coordinate = (s.voxel i).coordinate) ∧
        (∀ i, i ∉ pool → s'.voxel i = s.voxel i) ∧
        s'.total_number_of_elements = s.total_number_of_elements ∧
        ∀ original : List Nat,
          original.map (fun i => (s'.voxel i).coordinate)
            = original.map (fun i => (s.voxel i).coordinate)) := by
  constructor
  · intro p s head rest d
    obtain ⟨h1, h2, h3⟩ := get_neighbours_frame p s head rest d
    exact ⟨h1, fun i hi => voxel_eq (h1 i) (h2 i hi), h3⟩
  · intro s pool d
    obtain ⟨s', m, hrun⟩ := bfcluster_loop_total d _ s pool (-1) (Nat.lt_succ_self _)
    obtain ⟨N, hN⟩ := bfcluster_moves d s pool s' m hrun
    obtain ⟨h1, h2, h3⟩ := run_frame d (bfcluster_start s pool) N
    rw [hN] at h1 h2 h3
    refine ⟨s', m, hrun, h1, fun i hi => voxel_eq (h1 i) (h2 i hi), h3, fun original => ?_⟩
    exact List.map_congr_left (fun i _ => h1 i)

/-- C17 on the points `(0,0,0)`, `(1,1,0)` with the threshold `sqrt(2)`: the
voxel `2`, outside the pool, is not changed by `get_neighbours`. -/
theorem bfcluster_frame_witness :
    2 ∉ 0 :: [1] ∧
    (get_neighbours 0 (heap_of [(0, 0, 0), (1, 1, 0)]) 0 [1] threshold_sqrt2).state.voxel 2
      = (heap_of [(0, 0, 0), (1, 1, 0)]).voxel 2 :=
  ⟨by decide, (bfcluster_frame.1 0 (heap_of [(0, 0, 0), (1, 1, 0)]) 0 [1] threshold_sqrt2).2.1 2
    (by decide)⟩

/-! ## The progress counter -/

/-- What the scan of `get_neighbours` does to the progress counter when it
finds `k` neighbours and the counter stays below the count of elements: the
counter grows by `k` and `k` lines are printed, none of them `0`. -/
theorem get_neighbours_loop_count (p : Nat) (d : Threshold) (es : List Nat) :
    ∀ (s : State) (prev : List Nat) (k : Nat),
      (get_neighbours_loop p d s es prev).neighbour.length = prev.length + k →
      s.elements_assigned_to_clusters + k < s.total_number_of_elements →
      s.total_number_of_elements < UINT_RANGE →
      (get_neighbours_loop p d s es prev).state.elements_assigned_to_clusters
        = s.elements_assigned_to_clusters + k ∧
      ∃ out : List Nat, (get_neighbours_loop p d s es prev).state.printed = s.printed ++ out ∧
        out.length = k ∧ ∀ v ∈ out, 0 < v := by
  induction es with
  | nil =>
    intro s prev k hk _ _
    have hk0 : k = 0 := by
      simp only [get_neighbours_loop] at hk; omega
    subst hk0
    exact ⟨rfl, [], by simp [get_neighbours_loop], rfl, fun v hv => absurd hv (List.not_mem_nil v)⟩
  | cons e es ih =>
    intro s prev k hk hlt hU
    by_cases hn : within_distance (euclidean_distance_sq (s.voxel p) (s.voxel e)) d = true
    · have hstep : get_neighbours_loop p d s (e :: es) prev
          = get_neighbours_loop p d (s.count_assigned.set_cluster e (s.voxel p).cluster) es
              (e :: prev) := by
        simp only [get_neighbours_loop, hn, if_true]; rfl
      rw [hstep] at hk ⊢
      obtain ⟨_, h2, _, _⟩ := get_neighbours_loop_spec p d es
        (s.count_assigned.set_cluster e (s.voxel p).cluster) (e :: prev)
      have hk1 : 1 ≤ k := by
        rw [h2, List.length_append, List.length_cons] at hk; omega
      have hmod : (s.elements_assigned_to_clusters + 1) % UINT_RANGE
          = s.elements_assigned_to_clusters + 1 := Nat.mod_eq_of_lt (by omega)
      have hass : (s.count_assigned.set_cluster e (s.voxel p).cluster).elements_assigned_to_clusters
          = s.elements_assigned_to_clusters + 1 := hmod
      have htot : (s.count_assigned.set_cluster e (s.voxel p).cluster).total_number_of_elements
          = s.total_number_of_elements := rfl
      have hpr : (s.count_assigned.set_cluster e (s.voxel p).cluster).printed
          = s.printed ++ [(s.total_number_of_elements + UINT_RANGE
              - (s.elements_assigned_to_clusters + 1)) % UINT_RANGE] := by
        show s.printed ++ [(s.total_number_of_elements + UINT_RANGE
            - (s.elements_assigned_to_clusters + 1) % UINT_RANGE) % UINT_RANGE] = _
        rw [hmod]
      have hval : 0 < (s.total_number_of_elements + UINT_RANGE
          - (s.elements_assigned_to_clusters + 1)) % UINT_RANGE := by
        have e1 : s.total_number_of_elements + UINT_RANGE - (s.elements_assigned_to_clusters + 1)
            = (s.total_number_of_elements - (s.elements_assigned_to_clusters + 1))
              + UINT_RANGE := by omega
        rw [e1, Nat.add_mod_right, Nat.mod_eq_of_lt (by omega)]
        omega
      obtain ⟨ha, out, hout, hlen, hpos⟩ := ih
        (s.count_assigned.set_cluster e (s.voxel p).cluster) (e :: prev) (k - 1)
        (by rw [hk, List.length_cons]; omega) (by rw [hass, htot]; omega) (by rw [htot]; exact hU)
      refine ⟨by rw [ha, hass]; omega,
        (s.total_number_of_elements + UINT_RANGE
          - (s.elements_assigned_to_clusters + 1)) % UINT_RANGE :: out,
        ?_, by rw [List.length_cons, hlen]; omega, ?_⟩
      · rw [hout, hpr, List.append_assoc]; rfl
      · intro v hv
        rcases List.mem_cons.mp hv with rfl | hv'
        · exact hval
        · exact hpos v hv'
    · have hstep : get_neighbours_loop p d s (e :: es) prev
          = ⟨(get_neighbours_loop p d s es prev).state,
              e :: (get_neighbours_loop p d s es prev).kept,
              (get_neighbours_loop p d s es prev).neighbour⟩ := by
        simp only [get_neighbours_loop, hn, if_false]; rfl
      rw [hstep] at hk ⊢
      exact ih s prev k hk hlt hU

/-- The call of `get_neighbours` when the head of the pool and the centre are
assigned: the progress counter grows by the number of neighbours returned, as
long as it stays below the count of elements. -/
theorem get_neighbours_count (p : Nat) (s : State) (head : Nat) (rest : List Nat)
    (d : Threshold) (hh : (s.voxel head).cluster ≠ -1) (hp : (s.voxel p).cluster ≠ -1)
    (hlt : s.elements_assigned_to_clusters + (get_neighbours p s head rest d).neighbour.length
      < s.total_number_of_elements)
    (hU : s.total_number_of_elements < UINT_RANGE) :
    (get_neighbours p s head rest d).state.elements_assigned_to_clusters
      = s.elements_assigned_to_clusters + (get_neighbours p s head rest d).neighbour.length ∧
    (get_neighbours p s head rest d).state.total_number_of_elements
      = s.total_number_of_elements ∧
    ∃ out : List Nat, (get_neighbours p s head rest d).state.printed = s.printed ++ out ∧
      out.length = (get_neighbours p s head rest d).neighbour.length ∧ ∀ v ∈ out, 0 < v := by
  obtain ⟨_, h2, _, h4⟩ := get_neighbours_loop_spec p d rest s []
  have hhead : ((get_neighbours_loop p d s rest []).state.voxel head).cluster ≠ -1 := by
    rw [h4]; split <;> assumption
  rw [List.append_nil] at h2
  rcases get_neighbours_cases p s head rest d with ⟨_, hn, hs, _⟩ | ⟨_, _, _, hx, _⟩
  · have hnl : (get_neighbours p s head rest d).neighbour
        = (get_neighbours_loop p d s rest []).neighbour := by rw [hn, h2]
    rw [hnl] at hlt ⊢
    rw [hs]
    obtain ⟨ha, hout⟩ := get_neighbours_loop_count p d rest s []
      (get_neighbours_loop p d s rest []).neighbour.length (by simp) hlt hU
    refine ⟨ha, ?_, hout⟩
    rw [← hs]; exact (get_neighbours_frame p s head rest d).2.2
  · exact absurd hx hhead

/-- A call of `get_neighbours` made by `bfcluster` keeps the account of the
progress counter: what the counter gains, the pool loses. -/
theorem count_call {s0 : State} {total : Nat} (hU : total < UINT_RANGE) (p : Nat) (s : State)
    (h : Nat) (t : List Nat) (d : Threshold) (c : Int) (hc : 0 ≤ c)
    (hh : (s.voxel h).cluster ≠ -1) (hp : (s.voxel p).cluster ≠ -1)
    (hcnt : Counted s0 total s (total - (t.length + 1 : Nat) - c)) :
    Counted s0 total (get_neighbours p s h t d).state
      (total - (get_neighbours p s h t d).pool.length - c) := by
  obtain ⟨htot, hass, out, hpr, hlen, hpos⟩ := hcnt
  obtain ⟨h1, _, _, _⟩ := get_neighbours_assigned p s h t d hh hp
  have hlenr := get_neighbours_length p s h t d
  have hpl : 1 ≤ (get_neighbours p s h t d).pool.length := by
    rw [h1, List.length_cons]; omega
  push_cast at hass
  obtain ⟨ha, ht, out', hpr', hlen', hpos'⟩ := get_neighbours_count p s h t d hh hp
    (by rw [htot]; omega) (by rw [htot]; exact hU)
  refine ⟨by rw [ht, htot], ?_, out ++ out', ?_, ?_, ?_⟩
  · rw [ha]; push_cast; omega
  · rw [hpr', hpr, List.append_assoc]
  · rw [List.length_append, hlen, hlen', ha]
  · intro v hv
    rcases List.mem_append.mp hv with hv | hv
    · exact hpos v hv
    · exact hpos' v hv

/-- Every move of `bfcluster` keeps the account of the progress counter. -/
theorem count_step {s0 : State} {pool : List Nat} {d : Threshold} {total : Nat}
    (hU : total < UINT_RANGE) (cfg : Config) (hinv : ConfInv s0 pool d cfg)
    (hcnt : CountInv s0 total cfg) : CountInv s0 total (bfcluster_step d cfg) := by
  cases cfg with
  | done s c => exact hcnt
  | outer s p c =>
    cases p with
    | nil =>
      have hc : Counted s0 total s (total - ([] : List Nat).length - (c + 1)) := hcnt
      show Counted s0 total s (total - (c + 1))
      simpa using hc
    | cons h t =>
      have hl : LoopInv s0 pool d s (h :: t) c := hinv
      have hc := hl.counter
      have hs1 : ((s.set_cluster h (c + 1)).voxel h).cluster = c + 1 := by
        rw [set_cluster_cluster, if_pos rfl]
      have hne : ((s.set_cluster h (c + 1)).voxel h).cluster ≠ -1 := by rw [hs1]; omega
      have hc0 : Counted s0 total s (total - (h :: t).length - (c + 1)) := hcnt
      have hc1 : Counted s0 total (s.set_cluster h (c + 1))
          (total - (t.length + 1 : Nat) - (c + 1)) := by
        rw [List.length_cons] at hc0; exact hc0
      exact count_call hU h (s.set_cluster h (c + 1)) h t d (c + 1) (by omega) hne hne hc1
  | inner s f p c =>
    obtain ⟨h, q, hp, hsh, h0, _, _, hf⟩ := conf_inner hinv
    subst hp
    have hc0 : Counted s0 total s (total - (h :: q).length - c) := hcnt
    rw [List.length_cons] at hc0
    cases f with
    | nil =>
      show Counted s0 total s (total - q.length - (c + 1))
      obtain ⟨htot, hass, hout⟩ := hc0
      refine ⟨htot, ?_, hout⟩
      rw [hass]; push_cast; omega
    | cons n f =>
      have hsn : (s.voxel n).cluster = c := hf n (List.mem_cons_self n f)
      exact count_call hU n s h q d c h0 (by rw [hsh]; omega) (by rw [hsn]; omega) hc0

/-- C20, the progress counter: on a pool of `n` pairwise different, unassigned
voxels, with `total_number_of_elements = n` (below the range of `unsigned
int`) and `elements_assigned_to_clusters = 0` at the start, `bfcluster` returns
some `m` with the counter at `n - (m + 1)`, and each of the lines it printed,
one for each assignment counted, shows a remaining count above `0`. -/
theorem bfcluster_progress_counter (s : State) (pool : List Nat) (d : Threshold)
    (hnd : pool.Nodup) (hun : ∀ i ∈ pool, (s.voxel i).cluster = -1)
    (h0 : s.elements_assigned_to_clusters = 0)
    (hT : s.total_number_of_elements = pool.length) (hU : pool.length < UINT_RANGE) :
    ∃ s' m, bfcluster s pool d = some (s', m) ∧
      (s'.elements_assigned_to_clusters : Int) = (pool.length : Int) - (m + 1) ∧
      ∃ out : List Nat, s'.printed = s.printed ++ out ∧
        out.length = s'.elements_assigned_to_clusters ∧ ∀ v ∈ out, 0 < v := by
  obtain ⟨s', m, hrun, _⟩ := bfcluster_spec s pool d hnd hun
  obtain ⟨N, hN⟩ := bfcluster_moves d s pool s' m hrun
  have hreach : ∀ n, CountInv s pool.length (bfcluster_run d n (bfcluster_start s pool)) := by
    intro n
    induction n with
    | zero =>
      show Counted s pool.length s (pool.length - pool.length - (-1 + 1))
      exact ⟨hT, by rw [h0]; push_cast; omega, [], by simp, by rw [h0]; rfl,
        fun v hv => absurd hv (List.not_mem_nil v)⟩
    | succ n ih =>
      rw [bfcluster_run_succ]
      exact count_step hU _ (conf_reach s pool d hnd hun n) ih
  have hfin := hreach N
  rw [hN] at hfin
  obtain ⟨_, hass, hout⟩ : Counted s pool.length s' (pool.length - (m + 1)) := hfin
  exact ⟨s', m, hrun, hass, hout⟩

/-- C20 on the points `(0,0,0)`, `(1,0,0)`, `(5,0,0)` with the threshold
`1.5`. -/
theorem bfcluster_progress_counter_witness :
    [0, 1, 2].Nodup ∧
    (∀ i ∈ [0, 1, 2], ((heap_of [(0, 0, 0), (1, 0, 0), (5, 0, 0)]).voxel i).cluster = -1) ∧
    (heap_of [(0, 0, 0), (1, 0, 0), (5, 0, 0)]).elements_assigned_to_clusters = 0 ∧
    (heap_of [(0, 0, 0), (1, 0, 0), (5, 0, 0)]).total_number_of_elements = [0, 1, 2].length ∧
    [0, 1, 2].length < UINT_RANGE ∧
    ∃ s' m, bfcluster (heap_of [(0, 0, 0), (1, 0, 0), (5, 0, 0)]) [0, 1, 2] threshold_1_5
        = some (s', m) ∧
      (s'.elements_assigned_to_clusters : Int) = (([0, 1, 2] : List Nat).length : Int) - (m + 1) ∧
      ∃ out : List Nat,
        s'.printed = (heap_of [(0, 0, 0), (1, 0, 0), (5, 0, 0)]).printed ++ out ∧
        out.length = s'.elements_assigned_to_clusters ∧ ∀ v ∈ out, 0 < v :=
  ⟨by decide, by decide, rfl, rfl, by decide,
    bfcluster_progress_counter (heap_of [(0, 0, 0), (1, 0, 0), (5, 0, 0)]) [0, 1, 2]
      threshold_1_5 (by decide) (by decide) rfl rfl (by decide)⟩

/-! ## The output of `print_clusters` -/

theorem print_clusters_pass_eq (s : State) (i : Int) (l : List Nat) :
    print_clusters_pass s i l
      = (l.filter (fun e => decide ((s.voxel e).cluster = i))).map
          (fun e => record (s.voxel e)) := by
  induction l with
  | nil => rfl
  | cons e es ih =>
    by_cases h : (s.voxel e).cluster = i
    · subst h
      simp only [print_clusters_pass, if_true, List.filter_cons, decide_True, List.map_cons]
      rw [ih]
    · simp only [print_clusters_pass, h, if_false, List.filter_cons, decide_False]
      rw [ih]
      rfl

theorem print_clusters_pass_cluster (s : State) (i : Int) (l : List Nat) :
    ∀ r ∈ print_clusters_pass s i l, r.1 = i := by
  intro r hr
  rw [print_clusters_pass_eq, List.mem_map] at hr
  obtain ⟨e, he, rfl⟩ := hr
  have := (List.mem_filter.mp he).2
  simpa [record] using this

/-- Two filters that no element passes both split the filter of their
disjunction. -/
theorem filter_or_perm (f g : Nat → Bool) (hfg : ∀ x, ¬ (f x = true ∧ g x = true))
    (l : List Nat) : (l.filter f ++ l.filter g).Perm (l.filter (fun x => f x || g x)) := by
  induction l with
  | nil => exact List.Perm.refl _
  | cons a l ih =>
    cases hf : f a <;> cases hg : g a
    · simp only [List.filter_cons, hf, hg, Bool.or_self, Bool.false_eq_true, if_false]
      exact ih
    · simp only [List.filter_cons, hf, hg, Bool.or_true, Bool.false_eq_true, if_false, if_true]
      exact List.perm_middle.trans (ih.cons a)
    · simp only [List.filter_cons, hf, hg, Bool.or_false, Bool.false_eq_true, if_false, if_true,
        List.cons_append]
      exact ih.cons a
    · exact absurd ⟨hf, hg⟩ (hfg a)

/-- The total `n` of `print_clusters` counts the records written. -/
theorem print_clusters_loop_n (s : State) (l : List Nat) :
    ∀ (k : Nat) (i : Int) (out : Output), out.n = out.file.length →
      (print_clusters_loop s l k i out).n = (print_clusters_loop s l k i out).file.length := by
  intro k
  induction k with
  | zero => intro i out h; exact h
  | succ k ih =>
    intro i out h
    rw [print_clusters_loop]
    exact ih (i + 1) _ (by simp only [List.length_append]; omega)

/-- The records are written by ascending cluster id. -/
theorem print_clusters_loop_sorted (s : State) (l : List Nat) :
    ∀ (k : Nat) (i : Int) (out : Output),
      (out.file.map (fun r => r.1)).Pairwise (fun a b => a ≤ b) →
      (∀ r ∈ out.file, r.1 < i) →
      ((print_clusters_loop s l k i out).file.map (fun r => r.1)).Pairwise
        (fun a b => a ≤ b) := by
  intro k
  induction k with
  | zero => intro i out h _; exact h
  | succ k ih =>
    intro i out hs hlt
    rw [print_clusters_loop]
    refine ih (i + 1) _ ?_ ?_
    · show ((out.file ++ print_clusters_pass s i l).map (fun r => r.1)).Pairwise _
      rw [List.map_append, List.pairwise_append]
      refine ⟨hs, ?_, ?_⟩
      · rw [List.pairwise_map]
        exact List.Pairwise.imp_of_mem
          (fun ha hb _ => by
            rw [print_clusters_pass_cluster s i l _ ha, print_clusters_pass_cluster s i l _ hb])
          (List.pairwise_of_forall (fun _ _ => trivial))
      · intro a ha b hb
        obtain ⟨ra, hra, rfl⟩ := List.mem_map.mp ha
        obtain ⟨rb, hrb, rfl⟩ := List.mem_map.mp hb
        have h1 := hlt ra hra
        have h2 := print_clusters_pass_cluster s i l rb hrb
        show ra.1 ≤ rb.1
        omega
    · intro r hr
      rcases List.mem_append.mp hr with hr | hr
      · have := hlt r hr; omega
      · have := print_clusters_pass_cluster s i l r hr; omega

/-- The `k` passes from the id `i` on write the records of the voxels whose
cluster is one of `i, ..., i + k - 1`, each as often as the list holds it. -/
theorem print_clusters_loop_perm (s : State) (l : List Nat) :
    ∀ (k : Nat) (i : Int) (out : Output),
      (print_clusters_loop s l k i out).file.Perm
        (out.file ++ (l.filter (fun e =>
          decide (i ≤ (s.voxel e).cluster ∧ (s.voxel e).cluster < i + k))).map
            (fun e => record (s.voxel e))) := by
  intro k
  induction k with
  | zero =>
    intro i out
    have hnone : l.filter (fun e =>
        decide (i ≤ (s.voxel e).cluster ∧ (s.voxel e).cluster < i + (0 : Nat))) = [] := by
      rw [List.filter_eq_nil_iff]
      intro e _
      simp only [decide_eq_true_eq]
      push_cast
      omega
    rw [hnone]
    simp [print_clusters_loop]
  | succ k ih =>
    intro i out
    rw [print_clusters_loop]
    refine (ih (i + 1) _).trans ?_
    show ((out.file ++ print_clusters_pass s i l) ++ _).Perm _
    rw [List.append_assoc, print_clusters_pass_eq, ← List.map_append]
    refine List.Perm.append_left _ (List.Perm.map _ ?_)
    refine (filter_or_perm _ _ (fun x hx => ?_) l).trans (List.Perm.of_eq ?_)
    · simp only [decide_eq_true_eq] at hx
      omega
    · refine List.filter_congr (fun e _ => ?_)
      rw [← Bool.decide_or]
      refine decide_eq_decide.mpr ?_
      push_cast
      omega

/-- C14, output assembly: for a list of points whose cluster ids all lie in
`-1 .. maxcluster`, the records `print_clusters` writes are those of the points
of the list, each point once, as `(cluster, coordinate[0], coordinate[1],
coordinate[2])`; they come by ascending cluster id; and their number, which is
the total `n` reported, is the number of points. -/
theorem print_clusters_output (s : State) (l : List Nat) (maxcluster : Int)
    (h : ∀ e ∈ l, -1 ≤ (s.voxel e).cluster ∧ (s.voxel e).cluster ≤ maxcluster) :
    (print_clusters s l maxcluster).file.Perm (l.map (fun e => record (s.voxel e))) ∧
    (∀ e, record (s.voxel e)
      = ((s.voxel e).cluster, (s.voxel e).coordinate 0, (s.voxel e).coordinate 1,
          (s.voxel e).coordinate 2)) ∧
    ((print_clusters s l maxcluster).file.map (fun r => r.1)).Pairwise (fun a b => a ≤ b) ∧
    (print_clusters s l maxcluster).file.length = l.length ∧
    (print_clusters s l maxcluster).n = l.length := by
  have hall : l.filter (fun e => decide ((-1 : Int) ≤ (s.voxel e).cluster ∧
      (s.voxel e).cluster < -1 + ((maxcluster + 2).toNat : Nat))) = l := by
    rw [List.filter_eq_self]
    intro e he
    have := h e he
    simp only [decide_eq_true_eq]
    omega
  have hperm : (print_clusters s l maxcluster).file.Perm
      (l.map (fun e => record (s.voxel e))) := by
    have := print_clusters_loop_perm s l (maxcluster + 2).toNat (-1) ⟨[], [], 0⟩
    rw [hall] at this
    exact this
  have hlen : (print_clusters s l maxcluster).file.length = l.length := by
    rw [hperm.length_eq, List.length_map]
  refine ⟨hperm, fun e => rfl, ?_, hlen, ?_⟩
  · exact print_clusters_loop_sorted s l _ (-1) ⟨[], [], 0⟩ List.Pairwise.nil
      (fun r hr => absurd hr (List.not_mem_nil r))
  · rw [← hlen]
    exact print_clusters_loop_n s l _ (-1) ⟨[], [], 0⟩ rfl

/-- C14 on the points `(0,0,0)`, `(5,0,0)`, `(1,0,0)` with the clusters `0`,
`1`, `0`, read in the reverse order. -/
theorem print_clusters_output_witness :
    (∀ e ∈ [2, 1, 0],
      -1 ≤ (((((heap_of [(0, 0, 0), (5, 0, 0), (1, 0, 0)]).set_cluster 0 0).set_cluster 1
        1).set_cluster 2 0).voxel e).cluster ∧
      (((((heap_of [(0, 0, 0), (5, 0, 0), (1, 0, 0)]).set_cluster 0 0).set_cluster 1
        1).set_cluster 2 0).voxel e).cluster ≤ 1) ∧
    (print_clusters ((((heap_of [(0, 0, 0), (5, 0, 0), (1, 0, 0)]).set_cluster 0 0).set_cluster 1
        1).set_cluster 2 0) [2, 1, 0] 1).file.length = [2, 1, 0].length ∧
    (print_clusters ((((heap_of [(0, 0, 0), (5, 0, 0), (1, 0, 0)]).set_cluster 0 0).set_cluster 1
        1).set_cluster 2 0) [2, 1, 0] 1).n = [2, 1, 0].length :=
  ⟨by decide,
    (print_clusters_output ((((heap_of [(0, 0, 0), (5, 0, 0), (1, 0, 0)]).set_cluster 0
      0).set_cluster 1 1).set_cluster 2 0) [2, 1, 0] 1 (by decide)).2.2.2⟩

end FixedDistCluster
